import Mathlib

/-!
Verification development for the `accord` relational-tree generation engine.

The Python sources are shallowly embedded: the string-typed identifiers
(`VarId`, `Term`, `RelationType`, `RelationId`) stay strings, Python dicts
become insertion-ordered association lists, exceptions become `Except`
errors, and generators become an explicit `GenOut` value recording the
items yielded before normal completion or before an escaping exception.
Recursive generators (`Reducer._answer_ids_and_counts`,
`BeamSearch._do_inline`) take an explicit fuel argument; fuel exhaustion is
recorded like an exception (`ok = false`).  Every theorem about these
functions either quantifies over the fuel or supplies one that dominates
the actual recursion depth of the source.
-/

namespace Accord

/-- base/variable.py: `Term = str`. -/
abbrev Term := String

/-- base/variable.py: `VarId = str`. -/
abbrev VarId := String

/-- base/relation.py: `RelationType = str`. -/
abbrev RelationType := String

/-- base/relation.py: `RelationId = str`. -/
abbrev RelationId := String

/-- base/relation.py: `Relation` dataclass. -/
structure Relation where
  type_ : RelationType
  description : String
  surface_form : String
deriving DecidableEq

/-- base/case.py: the five-valued permutation `Case` enum. -/
inductive Case
  | ZERO
  | ONE
  | TWO
  | THREE
  | FOUR
deriving DecidableEq

/-- base/case.py: `Case.equivalent` — swaps ONE and FOUR, fixes ZERO, TWO, THREE
(the unsupported-case `TypeError` branch is unreachable: the enum is total). -/
def Case.equivalent : Case → Case
  | .ONE => .FOUR
  | .ZERO => .ZERO
  | .TWO => .TWO
  | .THREE => .THREE
  | .FOUR => .ONE

/-- base/template.py: `RelationalTemplate` dataclass. -/
structure RelationalTemplate where
  source_id : VarId
  relation_type : RelationType
  target_id : VarId
deriving DecidableEq

/-- base/template.py: `RelationalTemplate.partial_equals` with its three flags. -/
def RelationalTemplate.partialEquals (t other : RelationalTemplate)
    (source_ids relation_types target_ids : Bool) : Bool :=
  if source_ids = true ∧ t.source_id ≠ other.source_id then false
  else if relation_types = true ∧ t.relation_type ≠ other.relation_type then false
  else if target_ids = true ∧ t.target_id ≠ other.target_id then false
  else true

/-- base/tree.py: `RelationalTree` dataclass. -/
structure RelationalTree where
  templates : List RelationalTemplate
deriving DecidableEq

/-- base/tree.py: `RelationalTree.unique_variable_ids` — the set of all endpoint
identifiers (Python builds a `set` by adding each template's source and target). -/
def RelationalTree.uniqueVariableIds (tree : RelationalTree) : Finset VarId :=
  tree.templates.foldl (fun s t => insert t.target_id (insert t.source_id s)) ∅

/-- base/case.py: `RelationalCaseLink` dataclass. -/
structure RelationalCaseLink where
  r1_type : RelationType
  r2_type : RelationType
  case : Case
deriving DecidableEq

/-- base/case.py: `RelationalCaseLink.equivalent` — swap the relation types and
take the equivalent Case. -/
def RelationalCaseLink.equivalent (cl : RelationalCaseLink) : RelationalCaseLink :=
  ⟨cl.r2_type, cl.r1_type, cl.case.equivalent⟩

/-- base/case.py: `RelationalCaseLink.from_templates`.  The `ValueError` raised on
circular template links is modeled as `Except.error`.  Each branch keeps the
source's guard verbatim; in particular the final (Case ZERO) branch tests
`t1_source == t2_target or t2_source == t2_target` exactly as the source does —
note that its first disjunct is always false at that point (the `elif` chain
already excluded `t1_source == t2_target`). -/
def RelationalCaseLink.fromTemplates (t1 t2 : RelationalTemplate) :
    Except Unit RelationalCaseLink :=
  let t1_source := t1.source_id
  let t1_target := t1.target_id
  let t2_source := t2.source_id
  let t2_target := t2.target_id
  if t1_target = t2_source then
    if t1_source = t1_target ∨ t1_source = t2_target ∨ t2_target = t2_source then
      .error ()
    else .ok ⟨t1.relation_type, t2.relation_type, .ONE⟩
  else if t1_target = t2_target then
    if t1_source = t1_target ∨ t1_source = t2_source ∨ t2_source = t2_target then
      .error ()
    else .ok ⟨t1.relation_type, t2.relation_type, .TWO⟩
  else if t1_source = t2_source then
    if t1_target = t1_source ∨ t1_target = t2_target ∨ t2_target = t2_source then
      .error ()
    else .ok ⟨t1.relation_type, t2.relation_type, .THREE⟩
  else if t1_source = t2_target then
    if t1_target = t1_source ∨ t1_target = t2_source ∨ t2_source = t2_target then
      .error ()
    else .ok ⟨t1.relation_type, t2.relation_type, .FOUR⟩
  else
    if t1_source = t2_target ∨ t2_source = t2_target then
      .error ()
    else .ok ⟨t1.relation_type, t2.relation_type, .ZERO⟩

/-- components/reducer.py: `ReductionOrder` enum. -/
inductive ReductionOrder
  | MAINTAIN
  | REVERSE
deriving DecidableEq

/-- components/reducer.py: `ReductionOrder.__invert__` (the unsupported-value
branch is unreachable: the enum is total). -/
def ReductionOrder.invert : ReductionOrder → ReductionOrder
  | .MAINTAIN => .REVERSE
  | .REVERSE => .MAINTAIN

/-- components/reducer.py: `Reduction` frozen dataclass. -/
structure Reduction where
  relation_type : RelationType
  order : ReductionOrder
deriving DecidableEq

/-- components/reducer.py: `Reduction.__invert__` — same relation type, flipped order. -/
def Reduction.invert (r : Reduction) : Reduction :=
  ⟨r.relation_type, r.order.invert⟩

/-- components/reducer.py: `Reducer` — the known relation types plus the
`permutations` dict, modeled as an insertion-ordered association list with
unique keys (Python dict). -/
structure Reducer where
  relation_types : List RelationType
  permutations : List (RelationalCaseLink × Reduction)
deriving DecidableEq

/-- components/reducer.py: `Reducer.__init__` — `relation_types` collects `r.type_`
over the relations, `permutations` starts empty. -/
def mkReducer (relations : List Relation) : Reducer :=
  ⟨relations.map (fun r => r.type_), []⟩

/-- components/reducer.py: `Reducer.register`.  Stores under the exact key unless
the key or its equivalence-class counterpart is present; then a no-op, or a
`ValueError` (modeled as `Except.error`) when `raise_` is set. -/
def Reducer.register (r : Reducer) (case_link : RelationalCaseLink)
    (reduction : Reduction) (raise_ : Bool) : Except Unit Reducer :=
  let equiv := case_link.equivalent
  if (r.permutations.lookup case_link).isSome ∨ (r.permutations.lookup equiv).isSome then
    if raise_ then .error () else .ok r
  else
    .ok { r with permutations := r.permutations ++ [(case_link, reduction)] }

/-- components/reducer.py: `Reducer.reduce_case_link` — exact-key lookup, else
equivalence-class lookup returning the inverted reduction, else `None`. -/
def Reducer.reduceCaseLink (r : Reducer) (case_link : RelationalCaseLink) :
    Option Reduction :=
  let equiv := case_link.equivalent
  match r.permutations.lookup case_link with
  | some reduction => some reduction
  | none =>
    match r.permutations.lookup equiv with
    | some reduction => some reduction.invert
    | none => none

/-- components/reducer.py: `Reducer.reduce_templates`.  The source computes
`first, second` per Case (`None, None` for Case ZERO), looks up the reduction
(absent reduction or unknown relation type gives `None`), swaps on REVERSE, and
builds the resulting template.  For Case ZERO the source builds
`RelationalTemplate(None, type, None)`; its sole consumer `_is_valid_match`
rejects such a template for every (string) pairing id, so the embedding's final
match collapses that case to `none` as well. -/
def Reducer.reduceTemplates (r : Reducer) (t1 t2 : RelationalTemplate) :
    Except Unit (Option RelationalTemplate) := do
  let case_link ← RelationalCaseLink.fromTemplates t1 t2
  let fs : Option VarId × Option VarId :=
    match case_link.case with
    | .ZERO => (none, none)
    | .ONE => (some t1.source_id, some t2.target_id)
    | .TWO => (some t1.source_id, some t2.source_id)
    | .THREE => (some t1.target_id, some t2.target_id)
    | .FOUR => (some t1.target_id, some t2.source_id)
  match r.reduceCaseLink case_link with
  | none => pure none
  | some reduction =>
    if reduction.relation_type ∈ r.relation_types then
      let fs := if reduction.order = .REVERSE then (fs.2, fs.1) else fs
      match fs with
      | (some first, some second) => pure (some ⟨first, reduction.relation_type, second⟩)
      | _ => pure none
    else pure none

/-- components/reducer.py: `Reducer._is_valid_match` — the reduced template must
exist, share the pairing template's relation type, and contain the pairing id. -/
def Reducer.isValidMatch (test_template : Option RelationalTemplate)
    (pairing_template : RelationalTemplate) (pairing_id : VarId) : Bool :=
  match test_template with
  | none => false
  | some t =>
    if (t.partialEquals pairing_template false true false) = false then false
    else decide (pairing_id = t.source_id ∨ pairing_id = t.target_id)

instance {ε α : Type} [DecidableEq ε] [DecidableEq α] : DecidableEq (Except ε α) :=
  fun a b =>
  match a, b with
  | .error e, .error f =>
    if h : e = f then .isTrue (by rw [h])
    else .isFalse (by intro hc; cases hc; exact h rfl)
  | .ok x, .ok y =>
    if h : x = y then .isTrue (by rw [h])
    else .isFalse (by intro hc; cases hc; exact h rfl)
  | .error _, .ok _ => .isFalse (by intro hc; cases hc)
  | .ok _, .error _ => .isFalse (by intro hc; cases hc)

/-- The items a Python generator yields before it either finishes normally
(`ok = true`) or an exception escapes / fuel runs out (`ok = false`). -/
structure GenOut (α : Type) where
  yields : List α
  ok : Bool
deriving DecidableEq

/-- Sequencing of generator runs: the second part runs only when the first
finished normally. -/
def GenOut.andThen (a b : GenOut α) : GenOut α :=
  if a.ok then ⟨a.yields ++ b.yields, b.ok⟩ else a

/-- components/reducer.py: the `for template in templates` loop of
`_answer_ids_and_counts`, parameterized by the recursive continuation `recur`
(the next-level `_answer_ids_and_counts` call).  `rem` is the part of the list
still to be iterated; `templates` stays the full list (it builds `to_keep`).  A
reduction error (`ValueError` from `from_templates`) aborts the whole generator. -/
def Reducer.answerLoopWith (r : Reducer)
    (recur : List RelationalTemplate → RelationalTemplate → VarId → ℕ →
      GenOut (VarId × ℕ))
    (templates : List RelationalTemplate) (rem : List RelationalTemplate)
    (pairing_template : RelationalTemplate) (pairing_id : VarId) (count : ℕ) :
    GenOut (VarId × ℕ) :=
  match rem with
  | [] => ⟨[], true⟩
  | template :: rest =>
    if template = pairing_template then
      r.answerLoopWith recur templates rest pairing_template pairing_id count
    else
      match r.reduceTemplates template pairing_template with
      | .error _ => ⟨[], false⟩
      | .ok none =>
        r.answerLoopWith recur templates rest pairing_template pairing_id count
      | .ok (some new_template) =>
        if Reducer.isValidMatch (some new_template) pairing_template pairing_id then
          let to_keep :=
            (templates.filter (fun t => t ≠ template ∧ t ≠ pairing_template))
              ++ [new_template]
          GenOut.andThen
            (recur to_keep new_template pairing_id (count + 1))
            (r.answerLoopWith recur templates rest pairing_template pairing_id count)
        else
          r.answerLoopWith recur templates rest pairing_template pairing_id count

/-- components/reducer.py: `Reducer._answer_ids_and_counts`.  The leading block
yields the pairing template's other endpoint when the template is in the set
(raising — `ok = false` — when the pairing id is not one of its endpoints), then
the loop over the templates runs with the next recursion level as continuation.
Fuel bounds the recursion depth. -/
def Reducer.answerIdsAndCounts (r : Reducer) (fuel : ℕ)
    (templates : List RelationalTemplate) (pairing_template : RelationalTemplate)
    (pairing_id : VarId) (count : ℕ) : GenOut (VarId × ℕ) :=
  match fuel with
  | 0 => ⟨[], false⟩
  | fuel + 1 =>
    let base : GenOut (VarId × ℕ) :=
      if pairing_template ∈ templates then
        if pairing_id = pairing_template.source_id then
          ⟨[(pairing_template.target_id, count)], true⟩
        else if pairing_id = pairing_template.target_id then
          ⟨[(pairing_template.source_id, count)], true⟩
        else ⟨[], false⟩
      else ⟨[], true⟩
    GenOut.andThen base
      (r.answerLoopWith (r.answerIdsAndCounts fuel) templates templates
        pairing_template pairing_id count)

/-- The loop of `_answer_ids_and_counts` at a given fuel level. -/
def Reducer.answerLoop (r : Reducer) (fuel : ℕ)
    (templates rem : List RelationalTemplate) (pairing_template : RelationalTemplate)
    (pairing_id : VarId) (count : ℕ) : GenOut (VarId × ℕ) :=
  r.answerLoopWith (r.answerIdsAndCounts fuel) templates rem pairing_template
    pairing_id count

/-- components/reducer.py: `Reducer.valid_answer_ids` with `return_counts=True`.
The fuel `templates.length + 2` dominates the source's recursion depth: each
recursive call removes the current template and the pairing template from the
set and adds one reduced template, so after the first step the set size
strictly decreases. -/
def Reducer.validAnswerIds (r : Reducer) (tree : RelationalTree)
    (pairing_template : RelationalTemplate) (pairing_id : VarId) :
    GenOut (VarId × ℕ) :=
  r.answerIdsAndCounts (tree.templates.length + 2) tree.templates
    pairing_template pairing_id 0

/-- components/reducer.py: `Reducer.valid_answer_ids` with `return_counts=False`
(drop the hop counts). -/
def Reducer.validAnswerIdsNoCounts (r : Reducer) (tree : RelationalTree)
    (pairing_template : RelationalTemplate) (pairing_id : VarId) : GenOut VarId :=
  let out := r.validAnswerIds tree pairing_template pairing_id
  ⟨out.yields.map (fun p => p.1), out.ok⟩

theorem GenOut.mem_andThen {α : Type} {a b : GenOut α} {p : α} :
    p ∈ (a.andThen b).yields ↔ p ∈ a.yields ∨ (a.ok = true ∧ p ∈ b.yields) := by
  unfold GenOut.andThen
  split <;> simp_all

theorem GenOut.andThen_ok {α : Type} {a b : GenOut α} :
    (a.andThen b).ok = true ↔ a.ok = true ∧ b.ok = true := by
  unfold GenOut.andThen
  split <;> simp_all

theorem GenOut.mem_andThen_left {α : Type} {a b : GenOut α} {p : α}
    (h : p ∈ a.yields) : p ∈ (a.andThen b).yields := by
  unfold GenOut.andThen
  split <;> simp_all

theorem GenOut.mem_andThen_right {α : Type} {a b : GenOut α} {p : α}
    (ha : a.ok = true) (h : p ∈ b.yields) : p ∈ (a.andThen b).yields := by
  unfold GenOut.andThen
  simp [ha, h]

/-- `from_templates` only succeeds when the circular-link guard of the selected
branch is false; in particular the merged Case's two outer endpoints are
distinct. -/
theorem fromTemplates_outer_distinct {t1 t2 : RelationalTemplate}
    {cl : RelationalCaseLink}
    (h : RelationalCaseLink.fromTemplates t1 t2 = .ok cl) :
    (cl.case = .ONE → t1.source_id ≠ t2.target_id) ∧
    (cl.case = .TWO → t1.source_id ≠ t2.source_id) ∧
    (cl.case = .THREE → t1.target_id ≠ t2.target_id) ∧
    (cl.case = .FOUR → t1.target_id ≠ t2.source_id) := by
  simp only [RelationalCaseLink.fromTemplates] at h
  split_ifs at h <;> (try (injection h with h2; subst h2)) <;> simp_all

/-- A successfully reduced template has distinct endpoints (Case ZERO never
produces one, and the circular-link guards rule out equal outer endpoints). -/
theorem reduceTemplates_some_distinct {r : Reducer} {t1 t2 nt : RelationalTemplate}
    (h : r.reduceTemplates t1 t2 = .ok (some nt)) :
    nt.source_id ≠ nt.target_id := by
  unfold Reducer.reduceTemplates at h
  cases hft : RelationalCaseLink.fromTemplates t1 t2 with
  | error e => rw [hft] at h; simp [Bind.bind, Except.bind] at h
  | ok cl =>
    rw [hft] at h
    simp only [Bind.bind, Except.bind] at h
    have hspec := fromTemplates_outer_distinct hft
    cases hred : r.reduceCaseLink cl with
    | none => rw [hred] at h; simp [pure, Except.pure] at h
    | some reduction =>
      rw [hred] at h
      by_cases hmem : reduction.relation_type ∈ r.relation_types
      · simp only [hmem, if_true] at h
        cases hcase : cl.case <;> rw [hcase] at h <;>
          by_cases hrev : reduction.order = ReductionOrder.REVERSE <;>
            simp only [hrev, if_true, if_false] at h <;>
              simp_all [pure, Except.pure] <;>
                (try cases h) <;> simp_all [eq_comm]
      · simp [hmem, pure, Except.pure] at h

/-- A valid match means the pairing id is one of the reduced template's endpoints. -/
theorem isValidMatch_endpoint {nt pt : RelationalTemplate} {pid : VarId}
    (h : Reducer.isValidMatch (some nt) pt pid = true) :
    pid = nt.source_id ∨ pid = nt.target_id := by
  simp only [Reducer.isValidMatch] at h
  split_ifs at h
  exact of_decide_eq_true h

/-- base/case.py: `equivalent` is an involution on case links. -/
theorem RelationalCaseLink.equivalent_equivalent (cl : RelationalCaseLink) :
    cl.equivalent.equivalent = cl := by
  cases cl with
  | mk a b c => cases c <;> rfl

/-- The loop part of `_answer_ids_and_counts` only yields pairs whose answer id
differs from the pairing id, provided the same holds of every recursive search
from a reduced pairing template (supplied as `IH`). -/
theorem answerLoopWith_ne_aux (r : Reducer)
    (recur : List RelationalTemplate → RelationalTemplate → VarId → ℕ →
      GenOut (VarId × ℕ))
    (IH : ∀ (templates : List RelationalTemplate) (pt : RelationalTemplate)
      (pid : VarId) (c : ℕ),
      (pid = pt.source_id ∨ pid = pt.target_id) → pt.source_id ≠ pt.target_id →
      ∀ p ∈ (recur templates pt pid c).yields, p.1 ≠ pid) :
    ∀ (rem templates : List RelationalTemplate) (pt : RelationalTemplate)
      (pid : VarId) (c : ℕ),
      ∀ p ∈ (r.answerLoopWith recur templates rem pt pid c).yields, p.1 ≠ pid := by
  intro rem
  induction rem with
  | nil =>
    intro templates pt pid c p hp
    simp [Reducer.answerLoopWith] at hp
  | cons template rest ihrem =>
    intro templates pt pid c p hp
    rw [Reducer.answerLoopWith] at hp
    by_cases heq : template = pt
    · simp only [heq, if_pos rfl] at hp
      exact ihrem templates pt pid c p hp
    · simp only [if_neg heq] at hp
      cases hred : r.reduceTemplates template pt with
      | error e =>
        rw [hred] at hp
        simp at hp
      | ok nt =>
        rw [hred] at hp
        cases nt with
        | none =>
          dsimp only at hp
          exact ihrem templates pt pid c p hp
        | some nt =>
          dsimp only at hp
          by_cases hvm : Reducer.isValidMatch (some nt) pt pid = true
          · rw [if_pos hvm] at hp
            rcases GenOut.mem_andThen.mp hp with hsub | ⟨_, hrest⟩
            · exact IH _ nt pid (c + 1) (isValidMatch_endpoint hvm)
                (reduceTemplates_some_distinct hred) p hsub
            · exact ihrem templates pt pid c p hrest
          · rw [if_neg hvm] at hp
            exact ihrem templates pt pid c p hp

/-- No pair yielded by the loop at a given fuel level has its answer id equal
to the pairing id, given the corresponding fact for the next recursion level. -/
theorem answerLoop_ne_aux (r : Reducer) (fuel : ℕ)
    (IH : ∀ (templates : List RelationalTemplate) (pt : RelationalTemplate)
      (pid : VarId) (c : ℕ),
      (pid = pt.source_id ∨ pid = pt.target_id) → pt.source_id ≠ pt.target_id →
      ∀ p ∈ (r.answerIdsAndCounts fuel templates pt pid c).yields, p.1 ≠ pid) :
    ∀ (rem templates : List RelationalTemplate) (pt : RelationalTemplate)
      (pid : VarId) (c : ℕ),
      ∀ p ∈ (r.answerLoop fuel templates rem pt pid c).yields, p.1 ≠ pid := by
  intro rem templates pt pid c p hp
  exact answerLoopWith_ne_aux r (r.answerIdsAndCounts fuel) IH rem templates
    pt pid c p hp

/-- No pair yielded by `_answer_ids_and_counts` has its answer id equal to the
pairing id, as long as the pairing id is one of the pairing template's two
distinct endpoints. -/
theorem answerIdsAndCounts_ne (r : Reducer) :
    ∀ (fuel : ℕ) (templates : List RelationalTemplate) (pt : RelationalTemplate)
      (pid : VarId) (c : ℕ),
      (pid = pt.source_id ∨ pid = pt.target_id) → pt.source_id ≠ pt.target_id →
      ∀ p ∈ (r.answerIdsAndCounts fuel templates pt pid c).yields, p.1 ≠ pid := by
  intro fuel
  induction fuel with
  | zero =>
    intro templates pt pid c _ _ p hp
    simp [Reducer.answerIdsAndCounts] at hp
  | succ fuel ihfuel =>
    intro templates pt pid c hend hdist p hp
    rw [Reducer.answerIdsAndCounts] at hp
    rcases GenOut.mem_andThen.mp hp with hbase | ⟨_, hloop⟩
    · by_cases hmem : pt ∈ templates
      · simp only [if_pos hmem] at hbase
        by_cases hsrc : pid = pt.source_id
        · simp only [if_pos hsrc] at hbase
          simp at hbase
          rw [hbase, hsrc]
          exact fun hc => hdist hc.symm
        · simp only [if_neg hsrc] at hbase
          by_cases htgt : pid = pt.target_id
          · simp only [if_pos htgt] at hbase
            simp at hbase
            rw [hbase, htgt]
            exact fun hc => hdist hc
          · simp [if_neg htgt] at hbase
      · simp [if_neg hmem] at hbase
    · exact answerLoopWith_ne_aux r (r.answerIdsAndCounts fuel) ihfuel templates
        templates pt pid c p hloop

/-- Claim C1 (counterexample).  For the two-template chain tree
{(A, r1, B), (B, r2, C)} linked by Case ONE, with (r1, r2, Case ONE) registered
as Reduction("R3", MAINTAIN) and "R3" among the known relation types, the claim
says `valid_answer_ids(tree, (A, r1, B), "A")` with counts yields both (B, 0)
and (C, 1).  In fact it yields only (B, 0): `_is_valid_match` also requires the
reduced template's relation type ("R3") to equal the pairing template's
relation type ("r1"), which fails here, so the hop-1 recursion is pruned. -/
theorem c1_chain_counterexample :
    (mkReducer [⟨"r1", "", ""⟩, ⟨"r2", "", ""⟩, ⟨"R3", "", ""⟩]).register
        ⟨"r1", "r2", Case.ONE⟩ ⟨"R3", ReductionOrder.MAINTAIN⟩ false
      = .ok ⟨["r1", "r2", "R3"],
          [(⟨"r1", "r2", Case.ONE⟩, ⟨"R3", ReductionOrder.MAINTAIN⟩)]⟩
    ∧ (Reducer.validAnswerIds
        ⟨["r1", "r2", "R3"],
          [(⟨"r1", "r2", Case.ONE⟩, ⟨"R3", ReductionOrder.MAINTAIN⟩)]⟩
        ⟨[⟨"A", "r1", "B"⟩, ⟨"B", "r2", "C"⟩]⟩ ⟨"A", "r1", "B"⟩ "A")
      = ⟨[("B", 0)], true⟩
    ∧ ("C", 1) ∉ (Reducer.validAnswerIds
        ⟨["r1", "r2", "R3"],
          [(⟨"r1", "r2", Case.ONE⟩, ⟨"R3", ReductionOrder.MAINTAIN⟩)]⟩
        ⟨[⟨"A", "r1", "B"⟩, ⟨"B", "r2", "C"⟩]⟩ ⟨"A", "r1", "B"⟩ "A").yields :=
  ⟨by decide, by decide, by decide⟩

/-- Claim C1 (amended).  For the two-template chain tree linked by Case ONE with
the registered reduction, `valid_answer_ids` with counts always yields (B, 0);
it additionally yields (C, 1) exactly when the reduction's relation type equals
the pairing template's relation type (`_is_valid_match` compares them).  The
first conjunct shows the instance r1 = "R3" yielding both pairs; the second
shows the distinct-types instance yielding only (B, 0). -/
theorem c1_chain_amended :
    (Reducer.validAnswerIds
        ⟨["R3", "r2"], [(⟨"R3", "r2", Case.ONE⟩, ⟨"R3", ReductionOrder.MAINTAIN⟩)]⟩
        ⟨[⟨"A", "R3", "B"⟩, ⟨"B", "r2", "C"⟩]⟩ ⟨"A", "R3", "B"⟩ "A")
      = ⟨[("B", 0), ("C", 1)], true⟩
    ∧ (Reducer.validAnswerIds
        ⟨["r1", "r2", "R3"],
          [(⟨"r1", "r2", Case.ONE⟩, ⟨"R3", ReductionOrder.MAINTAIN⟩)]⟩
        ⟨[⟨"A", "r1", "B"⟩, ⟨"B", "r2", "C"⟩]⟩ ⟨"A", "r1", "B"⟩ "A")
      = ⟨[("B", 0)], true⟩ :=
  ⟨by decide, by decide⟩

/-- Claim C5 (counterexample).  Registering cl = ("r", "r", Case TWO) — a case
link equal to its own equivalent — with red = ("T", MAINTAIN) into an empty
Reducer and then looking up `cl.equivalent()` returns red itself (the exact-key
branch hits first), not `red.inverse()` = ("T", REVERSE) as the claim demands. -/
theorem c5_self_equivalent_counterexample :
    (mkReducer [⟨"T", "", ""⟩]).register ⟨"r", "r", Case.TWO⟩
        ⟨"T", ReductionOrder.MAINTAIN⟩ false
      = .ok ⟨["T"], [(⟨"r", "r", Case.TWO⟩, ⟨"T", ReductionOrder.MAINTAIN⟩)]⟩
    ∧ RelationalCaseLink.equivalent ⟨"r", "r", Case.TWO⟩ = ⟨"r", "r", Case.TWO⟩
    ∧ (Reducer.reduceCaseLink
        ⟨["T"], [(⟨"r", "r", Case.TWO⟩, ⟨"T", ReductionOrder.MAINTAIN⟩)]⟩
        (RelationalCaseLink.equivalent ⟨"r", "r", Case.TWO⟩))
      ≠ some (Reduction.invert ⟨"T", ReductionOrder.MAINTAIN⟩) :=
  ⟨by decide, by decide, by decide⟩

/-- Claim C5 (amended).  After registering (cl, red) into an empty Reducer,
`reduce_case_link(cl)` returns red, and `reduce_case_link(cl.equivalent())`
returns `red.inverse()` when cl differs from its own equivalent; when cl equals
its own equivalent (r1_type = r2_type with a self-equivalent Case) the
exact-key branch hits first and red itself is returned. -/
theorem c5_register_reduce_amended (relations : List Relation)
    (cl : RelationalCaseLink) (red : Reduction) :
    ∃ r : Reducer, (mkReducer relations).register cl red false = .ok r ∧
      r.reduceCaseLink cl = some red ∧
      r.reduceCaseLink cl.equivalent =
        some (if cl.equivalent = cl then red else red.invert) := by
  refine ⟨⟨relations.map (fun x => x.type_), [(cl, red)]⟩, ?_, ?_, ?_⟩
  · simp [Reducer.register, mkReducer, List.lookup]
  · simp [Reducer.reduceCaseLink, List.lookup]
  · by_cases h : cl.equivalent = cl
    · rw [h]
      simp [Reducer.reduceCaseLink, List.lookup, h]
    · simp only [Reducer.reduceCaseLink, List.lookup, if_neg h]
      have hne : (cl.equivalent == cl) = false := by
        simp [h]
      rw [hne]
      simp [RelationalCaseLink.equivalent_equivalent, h]

/-- Claim C6 (failing input).  `from_templates` is claimed to raise on every
pair containing a self-referential endpoint.  For t1 = (A, r, A) — a
self-referential template — and the disjoint t2 = (B, s, C), the code instead
returns Case ZERO: the ZERO branch's guard tests `t1_source == t2_target`
(always false there, since the elif chain already excluded it; evidently a slip
for `t1_source == t1_target`) and `t2_source == t2_target`, so a t1 self-loop
goes undetected while the symmetric t2 self-loop (second conjunct) is caught. -/
theorem c6_self_referential_zero_branch_eval :
    RelationalCaseLink.fromTemplates ⟨"A", "r", "A"⟩ ⟨"B", "s", "C"⟩
      = .ok ⟨"r", "s", Case.ZERO⟩
    ∧ RelationalCaseLink.fromTemplates ⟨"B", "s", "C"⟩ ⟨"A", "r", "A"⟩
      = .error () :=
  ⟨by decide, by decide⟩

/-- Claim C10 (counterexample).  For the tree {(A, r, A)} whose pairing
template has equal endpoints, with pairing id "A" (an endpoint of that
template), `valid_answer_ids` yields ("A", 0) — the answer id equals the
pairing id, contradicting the claim as stated for arbitrary trees. -/
theorem c10_self_loop_counterexample :
    ((⟨"A", "r", "A"⟩ : RelationalTemplate)
        ∈ (RelationalTree.mk [⟨"A", "r", "A"⟩]).templates)
    ∧ ((mkReducer []).validAnswerIds ⟨[⟨"A", "r", "A"⟩]⟩ ⟨"A", "r", "A"⟩ "A"
        = ⟨[("A", 0)], true⟩) :=
  ⟨by decide, by decide⟩

/-- Claim C10 (amended).  For every tree, every pairing template belonging to
the tree whose two endpoints are distinct, and every pairing id that is an
endpoint of that template, no (answer id, hop count) pair yielded by
`valid_answer_ids` has its answer id equal to the pairing id: the search yields
the opposite endpoint of a template containing the pairing id, and reduced
templates always have distinct endpoints. -/
theorem c10_answer_never_pairing_id (r : Reducer) (tree : RelationalTree)
    (pt : RelationalTemplate) (pid : VarId)
    (hmem : pt ∈ tree.templates)
    (hend : pid = pt.source_id ∨ pid = pt.target_id)
    (hdist : pt.source_id ≠ pt.target_id) :
    ∀ p ∈ (r.validAnswerIds tree pt pid).yields, p.1 ≠ pid :=
  fun p hp =>
    answerIdsAndCounts_ne r (tree.templates.length + 2) tree.templates pt pid 0
      hend hdist p hp

theorem c10_answer_never_pairing_id_witness :
    ((⟨"A", "r", "B"⟩ : RelationalTemplate)
        ∈ (RelationalTree.mk [⟨"A", "r", "B"⟩]).templates)
    ∧ (("A" : VarId) = (⟨"A", "r", "B"⟩ : RelationalTemplate).source_id
        ∨ ("A" : VarId) = (⟨"A", "r", "B"⟩ : RelationalTemplate).target_id)
    ∧ ((⟨"A", "r", "B"⟩ : RelationalTemplate).source_id
        ≠ (⟨"A", "r", "B"⟩ : RelationalTemplate).target_id)
    ∧ (("B", 0) ∈ ((mkReducer []).validAnswerIds ⟨[⟨"A", "r", "B"⟩]⟩
        ⟨"A", "r", "B"⟩ "A").yields)
    ∧ (("B", 0) : VarId × ℕ).1 ≠ "A" :=
  ⟨by decide, by decide, by decide, by decide,
    c10_answer_never_pairing_id (mkReducer []) ⟨[⟨"A", "r", "B"⟩]⟩
      ⟨"A", "r", "B"⟩ "A" (by decide) (by decide) (by decide) ("B", 0) (by decide)⟩

theorem answerLoopWith_ok_branch (r : Reducer)
    (recur : List RelationalTemplate → RelationalTemplate → VarId → ℕ →
      GenOut (VarId × ℕ)) :
    ∀ (rem2 T2 : List RelationalTemplate) (pt : RelationalTemplate) (pid : VarId)
      (c : ℕ) (t nt : RelationalTemplate),
      t ∈ rem2 → t ≠ pt → r.reduceTemplates t pt = .ok (some nt) →
      Reducer.isValidMatch (some nt) pt pid = true →
      (r.answerLoopWith recur T2 rem2 pt pid c).ok = true →
      (recur ((T2.filter (fun x => x ≠ t ∧ x ≠ pt)) ++ [nt]) nt pid (c + 1)).ok
        = true := by
  intro rem2
  induction rem2 with
  | nil =>
    intro T2 pt pid c t nt ht
    simp at ht
  | cons head rest ih =>
    intro T2 pt pid c t nt ht hne hred hvm hok
    rw [Reducer.answerLoopWith] at hok
    by_cases hhp : head = pt
    · rw [if_pos hhp] at hok
      rcases List.mem_cons.mp ht with rfl | htr
      · exact absurd hhp hne
      · exact ih T2 pt pid c t nt htr hne hred hvm hok
    · rw [if_neg hhp] at hok
      rcases List.mem_cons.mp ht with rfl | htr
      · rw [hred] at hok
        dsimp only at hok
        rw [if_pos hvm] at hok
        exact (GenOut.andThen_ok.mp hok).1
      · cases hredh : r.reduceTemplates head pt with
        | error e =>
          rw [hredh] at hok
          dsimp only at hok
          simp at hok
        | ok onth =>
          rw [hredh] at hok
          cases onth with
          | none =>
            dsimp only at hok
            exact ih T2 pt pid c t nt htr hne hred hvm hok
          | some nth =>
            dsimp only at hok
            by_cases hvmh : Reducer.isValidMatch (some nth) pt pid = true
            · rw [if_pos hvmh] at hok
              exact ih T2 pt pid c t nt htr hne hred hvm
                (GenOut.andThen_ok.mp hok).2
            · rw [if_neg hvmh] at hok
              exact ih T2 pt pid c t nt htr hne hred hvm hok

theorem answerLoopWith_mem_branch (r : Reducer)
    (recur : List RelationalTemplate → RelationalTemplate → VarId → ℕ →
      GenOut (VarId × ℕ)) :
    ∀ (rem2 T2 : List RelationalTemplate) (pt : RelationalTemplate) (pid : VarId)
      (c : ℕ) (t nt : RelationalTemplate) (p : VarId × ℕ),
      t ∈ rem2 → t ≠ pt → r.reduceTemplates t pt = .ok (some nt) →
      Reducer.isValidMatch (some nt) pt pid = true →
      (r.answerLoopWith recur T2 rem2 pt pid c).ok = true →
      p ∈ (recur ((T2.filter (fun x => x ≠ t ∧ x ≠ pt)) ++ [nt]) nt pid (c + 1)).yields →
      p ∈ (r.answerLoopWith recur T2 rem2 pt pid c).yields := by
  intro rem2
  induction rem2 with
  | nil =>
    intro T2 pt pid c t nt p ht
    simp at ht
  | cons head rest ih =>
    intro T2 pt pid c t nt p ht hne hred hvm hok hp
    rw [Reducer.answerLoopWith] at hok ⊢
    by_cases hhp : head = pt
    · rw [if_pos hhp] at hok ⊢
      rcases List.mem_cons.mp ht with rfl | htr
      · exact absurd hhp hne
      · exact ih T2 pt pid c t nt p htr hne hred hvm hok hp
    · rw [if_neg hhp] at hok ⊢
      rcases List.mem_cons.mp ht with rfl | htr
      · rw [hred] at hok ⊢
        dsimp only at hok ⊢
        rw [if_pos hvm] at hok ⊢
        exact GenOut.mem_andThen_left hp
      · cases hredh : r.reduceTemplates head pt with
        | error e =>
          rw [hredh] at hok
          dsimp only at hok
          simp at hok
        | ok onth =>
          rw [hredh] at hok
          cases onth with
          | none =>
            dsimp only at hok ⊢
            exact ih T2 pt pid c t nt p htr hne hred hvm hok hp
          | some nth =>
            dsimp only at hok ⊢
            by_cases hvmh : Reducer.isValidMatch (some nth) pt pid = true
            · rw [if_pos hvmh] at hok ⊢
              have hoks := GenOut.andThen_ok.mp hok
              exact GenOut.mem_andThen_right hoks.1
                (ih T2 pt pid c t nt p htr hne hred hvm hoks.2 hp)
            · rw [if_neg hvmh] at hok ⊢
              exact ih T2 pt pid c t nt p htr hne hred hvm hok hp

theorem answerLoop_mono_aux (r : Reducer) (fuel fuel2 : ℕ)
    (IHmain : ∀ (T T2 : List RelationalTemplate) (pt : RelationalTemplate)
      (pid : VarId) (c : ℕ),
      (∀ x ∈ T, x ∈ T2) →
      (r.answerIdsAndCounts fuel2 T2 pt pid c).ok = true →
      ∀ p ∈ (r.answerIdsAndCounts fuel T pt pid c).yields,
        p ∈ (r.answerIdsAndCounts fuel2 T2 pt pid c).yields) :
    ∀ (rem T T2 : List RelationalTemplate) (pt : RelationalTemplate)
      (pid : VarId) (c : ℕ),
      (∀ x ∈ rem, x ∈ T2) → (∀ x ∈ T, x ∈ T2) →
      (r.answerLoopWith (r.answerIdsAndCounts fuel2) T2 T2 pt pid c).ok = true →
      ∀ p ∈ (r.answerLoopWith (r.answerIdsAndCounts fuel) T rem pt pid c).yields,
        p ∈ (r.answerLoopWith (r.answerIdsAndCounts fuel2) T2 T2 pt pid c).yields := by
  intro rem
  induction rem with
  | nil =>
    intro T T2 pt pid c _ _ _ p hp
    simp [Reducer.answerLoopWith] at hp
  | cons t rest ih =>
    intro T T2 pt pid c hsubr hsub hok2 p hp
    rw [Reducer.answerLoopWith] at hp
    have hrest : ∀ x ∈ rest, x ∈ T2 := fun x hx => hsubr x (List.mem_cons_of_mem t hx)
    by_cases htp : t = pt
    · rw [if_pos htp] at hp
      exact ih T T2 pt pid c hrest hsub hok2 p hp
    · rw [if_neg htp] at hp
      cases hred : r.reduceTemplates t pt with
      | error e =>
        rw [hred] at hp
        dsimp only at hp
        simp at hp
      | ok ont =>
        rw [hred] at hp
        cases ont with
        | none =>
          dsimp only at hp
          exact ih T T2 pt pid c hrest hsub hok2 p hp
        | some nt =>
          dsimp only at hp
          by_cases hvm : Reducer.isValidMatch (some nt) pt pid = true
          · rw [if_pos hvm] at hp
            rcases GenOut.mem_andThen.mp hp with hsb | ⟨hsok, hrestm⟩
            · have ht2 : t ∈ T2 := hsubr t (List.mem_cons_self t rest)
              have hbrok := answerLoopWith_ok_branch r (r.answerIdsAndCounts fuel2)
                T2 T2 pt pid c t nt ht2 htp hred hvm hok2
              have hsubk : ∀ x ∈ (T.filter (fun x => x ≠ t ∧ x ≠ pt)) ++ [nt],
                  x ∈ (T2.filter (fun x => x ≠ t ∧ x ≠ pt)) ++ [nt] := by
                intro x hx
                rcases List.mem_append.mp hx with hxf | hxn
                · have := List.mem_filter.mp hxf
                  exact List.mem_append.mpr
                    (Or.inl (List.mem_filter.mpr ⟨hsub x this.1, this.2⟩))
                · exact List.mem_append.mpr (Or.inr hxn)
              have hp2 := IHmain _ _ nt pid (c + 1) hsubk hbrok p hsb
              exact answerLoopWith_mem_branch r (r.answerIdsAndCounts fuel2)
                T2 T2 pt pid c t nt p ht2 htp hred hvm hok2 hp2
            · exact ih T T2 pt pid c hrest hsub hok2 p hrestm
          · rw [if_neg hvm] at hp
            exact ih T T2 pt pid c hrest hsub hok2 p hp

theorem answerIdsAndCounts_mono (r : Reducer) :
    ∀ (fuel fuel2 : ℕ), fuel ≤ fuel2 →
      ∀ (T T2 : List RelationalTemplate) (pt : RelationalTemplate)
        (pid : VarId) (c : ℕ),
        (∀ x ∈ T, x ∈ T2) →
        (r.answerIdsAndCounts fuel2 T2 pt pid c).ok = true →
        ∀ p ∈ (r.answerIdsAndCounts fuel T pt pid c).yields,
          p ∈ (r.answerIdsAndCounts fuel2 T2 pt pid c).yields := by
  intro fuel
  induction fuel with
  | zero =>
    intro fuel2 _ T T2 pt pid c _ _ p hp
    simp [Reducer.answerIdsAndCounts] at hp
  | succ fuel ihf =>
    intro fuel2 hle T T2 pt pid c hsub hok2 p hp
    cases fuel2 with
    | zero => omega
    | succ fuel2 =>
      rw [Reducer.answerIdsAndCounts] at hp hok2 ⊢
      rcases GenOut.mem_andThen.mp hp with hb | ⟨hbok, hl⟩
      · by_cases hmem : pt ∈ T
        · have hmem2 : pt ∈ T2 := hsub pt hmem
          rw [if_pos hmem] at hb
          apply GenOut.mem_andThen_left
          rw [if_pos hmem2]
          by_cases hsrc : pid = pt.source_id
          · rw [if_pos hsrc] at hb ⊢
            exact hb
          · rw [if_neg hsrc] at hb ⊢
            by_cases htgt : pid = pt.target_id
            · rw [if_pos htgt] at hb ⊢
              exact hb
            · rw [if_neg htgt] at hb
              simp at hb
        · rw [if_neg hmem] at hb
          simp at hb
      · have hok2s := GenOut.andThen_ok.mp hok2
        apply GenOut.mem_andThen_right hok2s.1
        exact answerLoop_mono_aux r fuel fuel2 (ihf fuel2 (by omega)) T T T2
          pt pid c hsub hsub hok2s.2 p hl

/-- Claim C7 (counterexample).  Adding a template to a tree can remove
previously yielded answer pairs: on the three-template tree T the search yields
(B,0), (C,1) and (D,1) and terminates normally, but on T plus the extra
template (C, rx, A) the `from_templates` circular-link ValueError is raised
inside the branch that reduced (B, r2, C), aborting the generator before the
(B, r3, D) branch runs — (D, 1) is no longer yielded (the Python call raises,
returning nothing). -/
theorem c7_monotonicity_counterexample :
    (Reducer.validAnswerIds
        ⟨["R3", "r2", "r3", "rx"],
          [(⟨"R3", "r2", Case.ONE⟩, ⟨"R3", ReductionOrder.MAINTAIN⟩),
           (⟨"r3", "R3", Case.FOUR⟩, ⟨"R3", ReductionOrder.MAINTAIN⟩)]⟩
        ⟨[⟨"A", "R3", "B"⟩, ⟨"B", "r2", "C"⟩, ⟨"B", "r3", "D"⟩]⟩
        ⟨"A", "R3", "B"⟩ "A")
      = ⟨[("B", 0), ("C", 1), ("D", 1)], true⟩
    ∧ (Reducer.validAnswerIds
        ⟨["R3", "r2", "r3", "rx"],
          [(⟨"R3", "r2", Case.ONE⟩, ⟨"R3", ReductionOrder.MAINTAIN⟩),
           (⟨"r3", "R3", Case.FOUR⟩, ⟨"R3", ReductionOrder.MAINTAIN⟩)]⟩
        ⟨[⟨"A", "R3", "B"⟩, ⟨"B", "r2", "C"⟩, ⟨"B", "r3", "D"⟩]
            ++ [⟨"C", "rx", "A"⟩]⟩
        ⟨"A", "R3", "B"⟩ "A")
      = ⟨[("B", 0), ("C", 1)], false⟩
    ∧ ("D", 1) ∉ (Reducer.validAnswerIds
        ⟨["R3", "r2", "r3", "rx"],
          [(⟨"R3", "r2", Case.ONE⟩, ⟨"R3", ReductionOrder.MAINTAIN⟩),
           (⟨"r3", "R3", Case.FOUR⟩, ⟨"R3", ReductionOrder.MAINTAIN⟩)]⟩
        ⟨[⟨"A", "R3", "B"⟩, ⟨"B", "r2", "C"⟩, ⟨"B", "r3", "D"⟩]
            ++ [⟨"C", "rx", "A"⟩]⟩
        ⟨"A", "R3", "B"⟩ "A").yields :=
  ⟨by decide, by decide, by decide⟩

/-- Claim C7 (amended).  `valid_answer_ids` is monotone in the template set
provided the run on the enlarged tree terminates without an escaping error:
every (answer id, hop count) pair yielded on T is also yielded on T plus any
added templates whenever that larger run completes normally. -/
theorem c7_valid_answer_ids_monotone (r : Reducer)
    (T extra : List RelationalTemplate) (pt : RelationalTemplate) (pid : VarId)
    (hok : (r.validAnswerIds ⟨T ++ extra⟩ pt pid).ok = true) :
    ∀ p ∈ (r.validAnswerIds ⟨T⟩ pt pid).yields,
      p ∈ (r.validAnswerIds ⟨T ++ extra⟩ pt pid).yields := by
  intro p hp
  exact answerIdsAndCounts_mono r (T.length + 2) ((T ++ extra).length + 2)
    (by simp) T (T ++ extra) pt pid 0
    (fun x hx => List.mem_append.mpr (Or.inl hx)) hok p hp

theorem c7_valid_answer_ids_monotone_witness :
    (Reducer.validAnswerIds
        ⟨["R3", "r2"], [(⟨"R3", "r2", Case.ONE⟩, ⟨"R3", ReductionOrder.MAINTAIN⟩)]⟩
        ⟨[⟨"A", "R3", "B"⟩] ++ [⟨"B", "r2", "C"⟩]⟩ ⟨"A", "R3", "B"⟩ "A").ok = true
    ∧ ("B", 0) ∈ (Reducer.validAnswerIds
        ⟨["R3", "r2"], [(⟨"R3", "r2", Case.ONE⟩, ⟨"R3", ReductionOrder.MAINTAIN⟩)]⟩
        ⟨[⟨"A", "R3", "B"⟩] ++ [⟨"B", "r2", "C"⟩]⟩ ⟨"A", "R3", "B"⟩ "A").yields :=
  ⟨by decide,
    c7_valid_answer_ids_monotone
      ⟨["R3", "r2"], [(⟨"R3", "r2", Case.ONE⟩, ⟨"R3", ReductionOrder.MAINTAIN⟩)]⟩
      [⟨"A", "R3", "B"⟩] [⟨"B", "r2", "C"⟩] ⟨"A", "R3", "B"⟩ "A" (by decide)
      ("B", 0) (by decide)⟩

/-- components/instantiator.py: `InstantiatorVariant` enum. -/
inductive InstantiatorVariant
  | FACTUAL
  | ANTI_FACTUAL
deriving DecidableEq

/-- components/search.py: `BeamSearchProtocol` enum. -/
inductive BeamSearchProtocol
  | AF_IN_LINE
  | AF_POST_HOC
deriving DecidableEq

/-- components/instantiator.py: `Query` dataclass. -/
structure Query where
  template : RelationalTemplate
  query_id : VarId
  partner_term : Term
deriving DecidableEq

/-- components/instantiator.py: `QueryResult = Set[Term]`, modeled as the list of
its elements (the code only tests membership and feeds results to the sorter). -/
abbrev QueryResult := List Term

/-- base/instantiation.py: `InstantiationMap = Dict[VarId, Term]`, modeled as an
insertion-ordered association list with unique keys. -/
abbrev InstantiationMap := List (VarId × Term)

/-- components/search.py: `InstantiationOrder = Dict[VarId, int]`. -/
abbrev InstantiationOrderMap := List (VarId × ℕ)

/-- Python dict merge/update (`{**m, **upd}` and `m.update(upd)`): existing keys
keep their position with the overriding value, new keys are appended in order. -/
def dictUpdate {β : Type} (m upd : List (VarId × β)) : List (VarId × β) :=
  m.map (fun kv =>
    (kv.1, match upd.lookup kv.1 with
    | some v => v
    | none => kv.2))
    ++ upd.filter (fun kv => (m.lookup kv.1).isNone)

/-- Python's `len(set(m.values())) == len(m.values())` check: the mapped terms
are pairwise distinct. -/
def valuesNodup {β : Type} [DecidableEq β] (m : List (VarId × β)) : Bool :=
  decide (m.map (fun kv => kv.2)).Nodup

/-- itertools.product over per-variable candidate lists, keeping the dict key
order (first key varies slowest), as lists of key/value assignments. -/
def allProducts : List (VarId × List Term) → List (List (VarId × Term))
  | [] => [[]]
  | (k, vs) :: rest =>
    vs.flatMap (fun v => (allProducts rest).map (fun tail => (k, v) :: tail))

/-- Running a generator body over each item of a list in order, stopping at the
first abnormal exit. -/
def GenOut.forEach {α β : Type} : List α → (α → GenOut β) → GenOut β
  | [], _ => ⟨[], true⟩
  | x :: xs, f => (f x).andThen (GenOut.forEach xs f)

/-- Consuming one generator's yields with a generator body (Python
`for x in gen: ...`): the body runs per yielded item; when every body run exits
normally, an abnormal exit of the producer still aborts the loop at its end. -/
def GenOut.bindGen {α β : Type} (g : GenOut α) (f : α → GenOut β) : GenOut β :=
  let body := GenOut.forEach g.yields f
  if body.ok then ⟨body.yields, g.ok⟩ else body

/-- components/search.py: the collaborators a `BeamSearch` instance holds.  The
instantiators are pure functions per the spec's collaborator contract;
`sortSession` is a whole sorter round — `new_collection(variant)`, a sequence
of `add_query_result(result, query, query_existing_term=...)` calls, then
`sort_collection()` — as a pure function, again per the contract. -/
structure BeamSearchParams where
  factualQuery : Query → QueryResult
  antiFactualQuery : Query → QueryResult
  sortSession : InstantiatorVariant → List (QueryResult × Query × Option Term) → List Term
  top_k : ℕ

/-- components/search.py: an entry of the `frontier_variables` inner dict: the
fixed partner variable, its fixed term (looked up at insertion time — the
mapping is unchanged until the later query that reads it), and the template. -/
abbrev FrontierEntry := List (VarId × Term × RelationalTemplate)

/-- components/search.py: the `frontier_variables` dict of
`_query_frontier_variables`, in insertion order. -/
abbrev Frontier := List (VarId × FrontierEntry)

/-- Inserting one (test, partner, template) triple into the frontier dict; a
second template claiming the same (test, partner) slot raises
`ValueError("ReasoningTree has a cycle")`. -/
def addFrontier (fr : Frontier) (test partner : VarId) (pterm : Term)
    (template : RelationalTemplate) : Except Unit Frontier :=
  match fr with
  | [] => .ok [(test, [(partner, pterm, template)])]
  | (v, entries) :: rem =>
    if v = test then
      if entries.any (fun e => e.1 = partner) then .error ()
      else .ok ((v, entries ++ [(partner, pterm, template)]) :: rem)
    else
      match addFrontier rem test partner pterm template with
      | .error e => .error e
      | .ok rem2 => .ok ((v, entries) :: rem2)

/-- One direction `(partner, test)` of the frontier scan: record `test` as a
frontier variable when `partner` is fixed and `test` is not. -/
def frontierStep (fixed : InstantiationMap) (fr : Frontier) (partner test : VarId)
    (template : RelationalTemplate) : Except Unit Frontier :=
  match fixed.lookup partner with
  | some pterm =>
    if (fixed.lookup test).isNone then addFrontier fr test partner pterm template
    else .ok fr
  | none => .ok fr

/-- components/search.py: the frontier-discovery loop of
`_query_frontier_variables` — for each template, both (partner, test)
orientations `(source, target)` then `(target, source)`. -/
def buildFrontier (tree : RelationalTree) (fixed : InstantiationMap) :
    Except Unit Frontier :=
  tree.templates.foldlM (fun fr template => do
    let fr2 ← frontierStep fixed fr template.source_id template.target_id template
    frontierStep fixed fr2 template.target_id template.source_id template) []

/-- components/search.py: `BeamSearch._clean_up` — `sort_collection` results,
truncated to `top_k` when `0 < top_k < len(results)`.  The source then wraps
the list in `set(...)`; the embedding keeps the list (the conversion only
forgets order and multiplicity, and every claim below is about the set of
produced mappings). -/
def cleanUp (top_k : ℕ) (results : List Term) : List Term :=
  if 0 < top_k ∧ top_k < results.length then results.take top_k else results

/-- components/search.py: the query/rank part of `_query_frontier_variables`:
for each frontier variable, pick the anti-factual instantiator and collection
variant exactly when the variable is anti-factual and the protocol is
AF_IN_LINE, query once per recorded partner, and rank through one sorter
session. -/
def frontierCandidates (P : BeamSearchParams) (proto : BeamSearchProtocol)
    (anti_factual_ids : List VarId) (fr : Frontier) : List (VarId × List Term) :=
  fr.map (fun fv =>
    let fvar := fv.1
    let inline : Bool :=
      decide (fvar ∈ anti_factual_ids ∧ proto = BeamSearchProtocol.AF_IN_LINE)
    let variant :=
      if inline then InstantiatorVariant.ANTI_FACTUAL else InstantiatorVariant.FACTUAL
    let adds := fv.2.map (fun e =>
      let q : Query := ⟨e.2.2, fvar, e.2.1⟩
      ((if inline then P.antiFactualQuery q else P.factualQuery q), q,
        (none : Option Term)))
    (fvar, cleanUp P.top_k (P.sortSession variant adds)))

/-- components/search.py: `BeamSearch._query_frontier_variables`. -/
def queryFrontierVariables (P : BeamSearchParams) (proto : BeamSearchProtocol)
    (tree : RelationalTree) (anti_factual_ids : List VarId)
    (fixed : InstantiationMap) : Except Unit (List (VarId × List Term)) := do
  let fr ← buildFrontier tree fixed
  pure (frontierCandidates P proto anti_factual_ids fr)

/-- components/search.py: the per-template body of `_is_valid_mapping`.  The
query is always built with the template's source as query id and the target's
term as partner term; `KeyError` on a missing mapping/order entry is `none`.
Returns `some false` on the first failed check. -/
def checkTemplateValidity (P : BeamSearchParams) (proto : BeamSearchProtocol)
    (anti_factual_ids : List VarId) (fixed : InstantiationMap)
    (order : InstantiationOrderMap) (template : RelationalTemplate) :
    Option Bool := do
  let partner_term ← fixed.lookup template.target_id
  let query_term ← fixed.lookup template.source_id
  let q : Query := ⟨template, template.source_id, partner_term⟩
  let os ← order.lookup template.source_id
  let ot ← order.lookup template.target_id
  if os > ot then
    if template.source_id ∈ anti_factual_ids ∧ proto = BeamSearchProtocol.AF_IN_LINE then
      if query_term ∈ P.factualQuery q then return false
    else
      if query_term ∉ P.factualQuery q then return false
  if ot > os then
    if template.target_id ∈ anti_factual_ids ∧ proto = BeamSearchProtocol.AF_IN_LINE then
      if query_term ∈ P.factualQuery q then return false
    else
      if query_term ∉ P.factualQuery q then return false
  if os = ot then
    if proto = BeamSearchProtocol.AF_IN_LINE then
      if template.source_id ∈ anti_factual_ids ∧ template.target_id ∈ anti_factual_ids then
        if query_term ∈ P.factualQuery q then return false
      else if template.source_id ∉ anti_factual_ids ∧ template.target_id ∉ anti_factual_ids then
        if query_term ∉ P.factualQuery q then return false
      else
        return false
    else
      if query_term ∉ P.factualQuery q then return false
  return true

/-- components/search.py: the template loop of `_is_valid_mapping`. -/
def isValidMappingLoop (P : BeamSearchParams) (proto : BeamSearchProtocol)
    (anti_factual_ids : List VarId) (fixed : InstantiationMap)
    (order : InstantiationOrderMap) : List RelationalTemplate → Option Bool
  | [] => some true
  | t :: rest => do
    let okc ← checkTemplateValidity P proto anti_factual_ids fixed order t
    if okc then isValidMappingLoop P proto anti_factual_ids fixed order rest
    else pure false

/-- components/search.py: `BeamSearch._is_valid_mapping`. -/
def isValidMapping (P : BeamSearchParams) (proto : BeamSearchProtocol)
    (tree : RelationalTree) (anti_factual_ids : List VarId)
    (fixed : InstantiationMap) (order : InstantiationOrderMap) : Option Bool :=
  isValidMappingLoop P proto anti_factual_ids fixed order tree.templates

/-- components/search.py: `BeamSearch._do_inline`.  With a non-empty frontier,
iterate the product of the candidate sets, skip assignments with repeated
terms, and recurse on the merged mapping; with an empty frontier, re-check term
distinctness and run the final validity check before yielding.  The frontier
conflict `ValueError` and any `KeyError` escape abort the generator. -/
def doInline (P : BeamSearchParams) (proto : BeamSearchProtocol) :
    ℕ → RelationalTree → List VarId → InstantiationMap →
      InstantiationOrderMap → ℕ → GenOut InstantiationMap
  | 0, _, _, _, _, _ => ⟨[], false⟩
  | fuel + 1, tree, anti_factual_ids, fixed_mapping, instantiation_order, count =>
    match queryFrontierVariables P proto tree anti_factual_ids fixed_mapping with
    | .error _ => ⟨[], false⟩
    | .ok candidate_mapping =>
      if candidate_mapping.isEmpty = false then
        GenOut.forEach (allProducts candidate_mapping) (fun instantiation =>
          let new_mapping := dictUpdate fixed_mapping instantiation
          if valuesNodup new_mapping = true then
            doInline P proto fuel tree anti_factual_ids new_mapping
              (dictUpdate instantiation_order
                (instantiation.map (fun kv => (kv.1, count))))
              (count + 1)
          else ⟨[], true⟩)
      else
        if valuesNodup fixed_mapping = true then
          match isValidMapping P proto tree anti_factual_ids fixed_mapping
              instantiation_order with
          | none => ⟨[], false⟩
          | some true => ⟨[fixed_mapping], true⟩
          | some false => ⟨[], true⟩
        else ⟨[], true⟩

/-- components/search.py: the per-anti-factual-variable block of
`_do_post_hoc`: one ANTI_FACTUAL sorter session collecting, for every template
containing the variable, the anti-factual query against the partner's mapped
term, with `query_existing_term` set to the variable's current term. -/
def afCandidates (P : BeamSearchParams) (tree : RelationalTree)
    (mapping : InstantiationMap) (af_var : VarId) : Option (List Term) := do
  let af_term ← mapping.lookup af_var
  let adds ← tree.templates.foldlM (fun acc template => do
    if af_var = template.source_id then
      let pterm ← mapping.lookup template.target_id
      let q : Query := ⟨template, af_var, pterm⟩
      pure (acc ++ [(P.antiFactualQuery q, q, some af_term)])
    else if af_var = template.target_id then
      let pterm ← mapping.lookup template.source_id
      let q : Query := ⟨template, af_var, pterm⟩
      pure (acc ++ [(P.antiFactualQuery q, q, some af_term)])
    else pure acc) ([] : List (QueryResult × Query × Option Term))
  pure (cleanUp P.top_k (P.sortSession InstantiatorVariant.ANTI_FACTUAL adds))

/-- Key order of a Python dict written by repeated assignment: first occurrence
of each key (later assignments overwrite in place; here every recomputation
stores the same value). -/
def firstOccurrencesAux (seen : List VarId) : List VarId → List VarId
  | [] => []
  | x :: xs =>
    if x ∈ seen then firstOccurrencesAux seen xs
    else x :: firstOccurrencesAux (x :: seen) xs

def firstOccurrences (l : List VarId) : List VarId :=
  firstOccurrencesAux [] l

/-- components/search.py: `BeamSearch._do_post_hoc` — run `_do_inline` for the
factual base mappings, then per base mapping compute every anti-factual
variable's replacement set and yield the distinct-valued members of their
product over the base mapping; with no anti-factual variables, yield the base
mapping itself (re-checking distinctness). -/
def doPostHoc (P : BeamSearchParams) (proto : BeamSearchProtocol) (fuel : ℕ)
    (tree : RelationalTree) (anti_factual_ids : List VarId)
    (fixed_mapping : InstantiationMap) (instantiation_order : InstantiationOrderMap)
    (count : ℕ) : GenOut InstantiationMap :=
  GenOut.bindGen
    (doInline P proto fuel tree anti_factual_ids fixed_mapping
      instantiation_order count)
    (fun mapping =>
      match (firstOccurrences anti_factual_ids).mapM
          (fun v => (afCandidates P tree mapping v).map (fun cand => (v, cand))) with
      | none => ⟨[], false⟩
      | some af_mapping =>
        if af_mapping.isEmpty = false then
          ⟨(allProducts af_mapping).filterMap (fun instantiation =>
              let new_mapping := dictUpdate mapping instantiation
              if valuesNodup new_mapping = true then some new_mapping else none),
            true⟩
        else
          if valuesNodup mapping = true then ⟨[mapping], true⟩ else ⟨[], true⟩)

/-- components/search.py: `BeamSearch.__call__` — build the all-zero
instantiation order from the seed mapping and dispatch on the protocol (the
unsupported-protocol `ValueError` is unreachable: the enum is total). -/
def beamSearchRun (P : BeamSearchParams) (proto : BeamSearchProtocol) (fuel : ℕ)
    (tree : RelationalTree) (anti_factual_ids : List VarId)
    (seed_mapping : InstantiationMap) : GenOut InstantiationMap :=
  let order : InstantiationOrderMap := seed_mapping.map (fun kv => (kv.1, 0))
  match proto with
  | .AF_IN_LINE => doInline P proto fuel tree anti_factual_ids seed_mapping order 1
  | .AF_POST_HOC => doPostHoc P proto fuel tree anti_factual_ids seed_mapping order 1

theorem GenOut.mem_forEach {α β : Type} {l : List α} {f : α → GenOut β} {p : β} :
    p ∈ (GenOut.forEach l f).yields → ∃ x ∈ l, p ∈ (f x).yields := by
  induction l with
  | nil => intro h; simp [GenOut.forEach] at h
  | cons x xs ih =>
    intro h
    rcases GenOut.mem_andThen.mp h with hx | ⟨_, hxs⟩
    · exact ⟨x, List.mem_cons_self x xs, hx⟩
    · obtain ⟨y, hy, hp⟩ := ih hxs
      exact ⟨y, List.mem_cons_of_mem x hy, hp⟩

theorem GenOut.forEach_congr {α β : Type} {l : List α} {f g : α → GenOut β}
    (h : ∀ x ∈ l, f x = g x) : GenOut.forEach l f = GenOut.forEach l g := by
  induction l with
  | nil => rfl
  | cons x xs ih =>
    simp only [GenOut.forEach]
    rw [h x (List.mem_cons_self x xs), ih (fun y hy => h y (List.mem_cons_of_mem x hy))]

theorem GenOut.forEach_singleton_yield {α : Type} (l : List α) :
    GenOut.forEach l (fun x => (⟨[x], true⟩ : GenOut α)) = ⟨l, true⟩ := by
  induction l with
  | nil => rfl
  | cons x xs ih => simp [GenOut.forEach, GenOut.andThen, ih]

/-- Every mapping yielded by `_do_inline` has pairwise-distinct terms: both
yield sites are guarded by the `len(set(values)) == len(values)` check. -/
theorem doInline_valuesNodup (P : BeamSearchParams) (proto : BeamSearchProtocol) :
    ∀ (fuel : ℕ) (tree : RelationalTree) (af : List VarId)
      (fixed : InstantiationMap) (order : InstantiationOrderMap) (count : ℕ),
      ∀ m ∈ (doInline P proto fuel tree af fixed order count).yields,
        valuesNodup m = true := by
  intro fuel
  induction fuel with
  | zero =>
    intro tree af fixed order count m hm
    simp [doInline] at hm
  | succ fuel ih =>
    intro tree af fixed order count m hm
    rw [doInline] at hm
    cases hq : queryFrontierVariables P proto tree af fixed with
    | error e => rw [hq] at hm; simp at hm
    | ok cand =>
      rw [hq] at hm
      dsimp only at hm
      by_cases hne : cand.isEmpty = false
      · rw [if_pos hne] at hm
        obtain ⟨inst, _, hmem⟩ := GenOut.mem_forEach hm
        by_cases hnd : valuesNodup (dictUpdate fixed inst) = true
        · rw [if_pos hnd] at hmem
          exact ih tree af _ _ (count + 1) m hmem
        · rw [if_neg hnd] at hmem
          simp at hmem
      · rw [if_neg hne] at hm
        by_cases hnd : valuesNodup fixed = true
        · rw [if_pos hnd] at hm
          cases hv : isValidMapping P proto tree af fixed order with
          | none => rw [hv] at hm; simp at hm
          | some b =>
            rw [hv] at hm
            cases b with
            | true =>
              simp at hm
              rw [hm]
              exact hnd
            | false => simp at hm
        · rw [if_neg hnd] at hm
          simp at hm

theorem bindGen_of_pointwise_pure {α : Type} (g : GenOut α) (f : α → GenOut α)
    (h : ∀ m ∈ g.yields, f m = ⟨[m], true⟩) : GenOut.bindGen g f = g := by
  unfold GenOut.bindGen
  rw [GenOut.forEach_congr h, GenOut.forEach_singleton_yield]
  simp

/-- With no anti-factual variables the ranking step never consults the
protocol: the anti-factual branch condition is vacuous. -/
theorem frontierCandidates_empty_af (P : BeamSearchParams)
    (proto proto2 : BeamSearchProtocol) (fr : Frontier) :
    frontierCandidates P proto [] fr = frontierCandidates P proto2 [] fr := by
  simp [frontierCandidates]

theorem queryFrontierVariables_empty_af (P : BeamSearchParams)
    (proto proto2 : BeamSearchProtocol) (tree : RelationalTree)
    (fixed : InstantiationMap) :
    queryFrontierVariables P proto tree [] fixed
      = queryFrontierVariables P proto2 tree [] fixed := by
  unfold queryFrontierVariables
  cases hb : buildFrontier tree fixed with
  | error e => rfl
  | ok fr =>
    simp [Bind.bind, Except.bind, frontierCandidates_empty_af P proto proto2 fr]

theorem checkTemplateValidity_empty_af (P : BeamSearchParams)
    (proto proto2 : BeamSearchProtocol) (fixed : InstantiationMap)
    (order : InstantiationOrderMap) (t : RelationalTemplate) :
    checkTemplateValidity P proto [] fixed order t
      = checkTemplateValidity P proto2 [] fixed order t := by
  cases proto <;> cases proto2 <;> simp [checkTemplateValidity]

theorem isValidMapping_empty_af (P : BeamSearchParams)
    (proto proto2 : BeamSearchProtocol) (tree : RelationalTree)
    (fixed : InstantiationMap) (order : InstantiationOrderMap) :
    isValidMapping P proto tree [] fixed order
      = isValidMapping P proto2 tree [] fixed order := by
  unfold isValidMapping
  induction tree.templates with
  | nil => rfl
  | cons t rest ih =>
    simp only [isValidMappingLoop]
    rw [checkTemplateValidity_empty_af P proto proto2 fixed order t]
    cases checkTemplateValidity P proto2 [] fixed order t with
    | none => rfl
    | some b =>
      cases b with
      | true => simp [Bind.bind, Option.bind, ih]
      | false => rfl

/-- With no anti-factual variables `_do_inline` is independent of the protocol. -/
theorem doInline_empty_af (P : BeamSearchParams)
    (proto proto2 : BeamSearchProtocol) :
    ∀ (fuel : ℕ) (tree : RelationalTree) (fixed : InstantiationMap)
      (order : InstantiationOrderMap) (count : ℕ),
      doInline P proto fuel tree [] fixed order count
        = doInline P proto2 fuel tree [] fixed order count := by
  intro fuel
  induction fuel with
  | zero => intro tree fixed order count; rfl
  | succ fuel ih =>
    intro tree fixed order count
    rw [doInline, doInline,
      queryFrontierVariables_empty_af P proto proto2 tree fixed]
    cases hq : queryFrontierVariables P proto2 tree [] fixed with
    | error e => rfl
    | ok cand =>
      dsimp only
      by_cases hne : cand.isEmpty = false
      · rw [if_pos hne, if_pos hne]
        apply GenOut.forEach_congr
        intro inst _
        by_cases hnd : valuesNodup (dictUpdate fixed inst) = true
        · rw [if_pos hnd, if_pos hnd, ih]
        · rw [if_neg hnd, if_neg hnd]
      · rw [if_neg hne, if_neg hne,
          isValidMapping_empty_af P proto proto2 tree fixed order]

/-- With no anti-factual variables `_do_post_hoc` degenerates to `_do_inline`:
per factual base mapping the anti-factual dict is empty, and the re-checked
distinctness guard is already guaranteed by the base search. -/
theorem doPostHoc_empty_af (P : BeamSearchParams) (proto : BeamSearchProtocol)
    (fuel : ℕ) (tree : RelationalTree) (fixed : InstantiationMap)
    (order : InstantiationOrderMap) (count : ℕ) :
    doPostHoc P proto fuel tree [] fixed order count
      = doInline P proto fuel tree [] fixed order count := by
  unfold doPostHoc
  apply bindGen_of_pointwise_pure
  intro m hm
  have hnd := doInline_valuesNodup P proto fuel tree [] fixed order count m hm
  simp [firstOccurrences, firstOccurrencesAux, List.mapM.loop, hnd]

/-- Claim C4.  For every relational tree, seed mapping, fuel, and (pure,
deterministic) instantiator/sorter collaborators, `BeamSearch.__call__` under
AF_IN_LINE and under AF_POST_HOC yield identical sets of mappings when the
anti-factual id list is empty (in the model they are the same `GenOut`, so
membership coincides). -/
theorem c4_protocols_agree_on_empty_af (P : BeamSearchParams) (fuel : ℕ)
    (tree : RelationalTree) (seed : InstantiationMap) :
    ∀ m : InstantiationMap,
      m ∈ (beamSearchRun P .AF_IN_LINE fuel tree [] seed).yields ↔
      m ∈ (beamSearchRun P .AF_POST_HOC fuel tree [] seed).yields := by
  intro m
  unfold beamSearchRun
  dsimp only
  rw [doPostHoc_empty_af, doInline_empty_af P .AF_POST_HOC .AF_IN_LINE]

/-- Reflexive-transitive reachability along a relation (used for the variable
graphs of relational trees and of the generic-tree builder). -/
inductive ReachVia {α : Type} (adj : α → α → Prop) : α → α → Prop
  | refl (a : α) : ReachVia adj a a
  | tail {a b c : α} : ReachVia adj a b → adj b c → ReachVia adj a c

/-- Adjacency in a relational tree's variable multigraph: some template has the
two ids as its endpoints. -/
def templateAdj (tree : RelationalTree) (u v : VarId) : Prop :=
  ∃ t ∈ tree.templates,
    (t.source_id = u ∧ t.target_id = v) ∨ (t.source_id = v ∧ t.target_id = u)

/-- Connectivity of a relational tree's variable graph. -/
def ConnectedTree (tree : RelationalTree) : Prop :=
  ∀ u ∈ tree.uniqueVariableIds, ∀ v ∈ tree.uniqueVariableIds,
    ReachVia (templateAdj tree) u v

/-- Poly-tree property of a relational tree's variable multigraph: connected
with exactly one edge less than vertices (for a connected multigraph this edge
count is equivalent to acyclicity). -/
def IsPolyTree (tree : RelationalTree) : Prop :=
  ConnectedTree tree ∧ tree.templates.length + 1 = tree.uniqueVariableIds.card

theorem mem_uniqueVariableIds {tree : RelationalTree} {v : VarId} :
    v ∈ tree.uniqueVariableIds ↔
      ∃ t ∈ tree.templates, v = t.source_id ∨ v = t.target_id := by
  have key : ∀ (ts : List RelationalTemplate) (s : Finset VarId),
      v ∈ ts.foldl (fun s t => insert t.target_id (insert t.source_id s)) s ↔
        v ∈ s ∨ ∃ t ∈ ts, v = t.source_id ∨ v = t.target_id := by
    intro ts
    induction ts with
    | nil => simp
    | cons t rest ih =>
      intro s
      simp only [List.foldl_cons, ih, Finset.mem_insert, List.mem_cons]
      constructor
      · rintro ((h | h | h) | ⟨u, hu, h⟩)
        · exact Or.inr ⟨t, Or.inl rfl, Or.inr h⟩
        · exact Or.inr ⟨t, Or.inl rfl, Or.inl h⟩
        · exact Or.inl h
        · exact Or.inr ⟨u, Or.inr hu, h⟩
      · rintro (h | ⟨u, (rfl | hu), h⟩)
        · exact Or.inl (Or.inr (Or.inr h))
        · rcases h with h | h
          · exact Or.inl (Or.inr (Or.inl h))
          · exact Or.inl (Or.inl h)
        · exact Or.inr ⟨u, hu, h⟩
  unfold RelationalTree.uniqueVariableIds
  simpa using key tree.templates ∅

theorem lookup_append_isSome {β : Type} {l1 l2 : List (VarId × β)} {v : VarId}
    (h : (l1.lookup v).isSome) : (((l1 ++ l2).lookup v)).isSome := by
  induction l1 with
  | nil => simp [List.lookup] at h
  | cons kv rest ih =>
    simp only [List.cons_append, List.lookup]
    by_cases hv : v = kv.1
    · simp [hv]
    · have hb : (v == kv.1) = false := by simp [hv]
      rw [hb]
      simp only [List.lookup, hb] at h
      exact ih h

theorem lookup_map_keep_keys_isSome {β : Type} (m : List (VarId × β))
    (f : VarId × β → β) {v : VarId} (h : (m.lookup v).isSome) :
    ((m.map (fun kv => (kv.1, f kv))).lookup v).isSome := by
  induction m with
  | nil => simp [List.lookup] at h
  | cons kv rest ih =>
    simp only [List.map_cons, List.lookup]
    by_cases hv : v = kv.1
    · simp [hv]
    · have hb : (v == kv.1) = false := by simp [hv]
      rw [hb]
      simp only [List.lookup, hb] at h
      exact ih h

theorem dictUpdate_lookup_isSome {β : Type} {m upd : List (VarId × β)} {v : VarId}
    (h : (m.lookup v).isSome) : ((dictUpdate m upd).lookup v).isSome := by
  unfold dictUpdate
  exact lookup_append_isSome (lookup_map_keep_keys_isSome m _ h)

theorem addFrontier_ok_ne_nil {fr : Frontier} {test partner : VarId} {pterm : Term}
    {template : RelationalTemplate} {fr2 : Frontier}
    (h : addFrontier fr test partner pterm template = .ok fr2) : fr2 ≠ [] := by
  induction fr generalizing fr2 with
  | nil =>
    simp only [addFrontier] at h
    injection h with h
    rw [← h]
    simp
  | cons ve rem ih =>
    simp only [addFrontier] at h
    by_cases hv : ve.1 = test
    · rw [if_pos hv] at h
      by_cases hdup : ve.2.any (fun e => e.1 = partner) = true
      · rw [if_pos hdup] at h
        cases h
      · rw [if_neg hdup] at h
        injection h with h
        rw [← h]
        simp
    · rw [if_neg hv] at h
      cases hrec : addFrontier rem test partner pterm template with
      | error e => rw [hrec] at h; cases h
      | ok rem2 =>
        rw [hrec] at h
        injection h with h
        rw [← h]
        simp

theorem frontierStep_ok_nil {fixed : InstantiationMap} {fr : Frontier}
    {partner test : VarId} {template : RelationalTemplate}
    (h : frontierStep fixed fr partner test template = .ok []) :
    fr = [] ∧ ¬((fixed.lookup partner).isSome = true ∧ (fixed.lookup test).isNone = true) := by
  unfold frontierStep at h
  cases hl : fixed.lookup partner with
  | none =>
    rw [hl] at h
    dsimp only at h
    injection h with h
    exact ⟨h, by simp [hl]⟩
  | some pterm =>
    rw [hl] at h
    dsimp only at h
    by_cases ht : (fixed.lookup test).isNone = true
    · rw [if_pos ht] at h
      exact absurd rfl (addFrontier_ok_ne_nil h)
    · rw [if_neg ht] at h
      injection h with h
      exact ⟨h, fun hc => ht hc.2⟩

/-- If the frontier scan of `_query_frontier_variables` produces an empty
frontier dict, then no template links a fixed variable to an unfixed one, in
either orientation. -/
theorem frontierFold_nil (fixed : InstantiationMap) :
    ∀ (ts : List RelationalTemplate) (fr0 : Frontier),
      (ts.foldlM (fun fr template => do
        let fr2 ← frontierStep fixed fr template.source_id template.target_id template
        frontierStep fixed fr2 template.target_id template.source_id template) fr0
        = .ok ([] : Frontier)) →
      fr0 = [] ∧ ∀ t ∈ ts,
        ¬((fixed.lookup t.source_id).isSome = true ∧ (fixed.lookup t.target_id).isNone = true) ∧
        ¬((fixed.lookup t.target_id).isSome = true ∧ (fixed.lookup t.source_id).isNone = true) := by
  intro ts
  induction ts with
  | nil =>
    intro fr0 h
    simp only [List.foldlM, pure, Except.pure] at h
    injection h with h
    exact ⟨h, by simp⟩
  | cons t rest ih =>
    intro fr0 h
    rw [List.foldlM_cons] at h
    cases hstep : (do
        let fr2 ← frontierStep fixed fr0 t.source_id t.target_id t
        frontierStep fixed fr2 t.target_id t.source_id t :
          Except Unit Frontier) with
    | error e =>
      rw [hstep] at h
      simp [Bind.bind, Except.bind] at h
    | ok fr1 =>
      rw [hstep] at h
      simp only [Bind.bind, Except.bind] at h
      obtain ⟨hfr1, hrest⟩ := ih fr1 h
      subst hfr1
      cases hs1 : frontierStep fixed fr0 t.source_id t.target_id t with
      | error e =>
        rw [hs1] at hstep
        simp [Bind.bind, Except.bind] at hstep
      | ok fr2 =>
        rw [hs1] at hstep
        simp only [Bind.bind, Except.bind] at hstep
        obtain ⟨hfr2, hdir2⟩ := frontierStep_ok_nil hstep
        subst hfr2
        obtain ⟨hfr0, hdir1⟩ := frontierStep_ok_nil hs1
        refine ⟨hfr0, ?_⟩
        intro u hu
        rcases List.mem_cons.mp hu with rfl | hur
        · exact ⟨hdir1, hdir2⟩
        · exact hrest u hur

/-- Closure plus connectivity gives totality: if every template propagates
fixedness across its endpoints and some tree variable is fixed, every tree
variable is fixed. -/
theorem closure_total (tree : RelationalTree) (fixed : InstantiationMap)
    (hclosed : ∀ t ∈ tree.templates,
      ¬((fixed.lookup t.source_id).isSome = true ∧ (fixed.lookup t.target_id).isNone = true) ∧
      ¬((fixed.lookup t.target_id).isSome = true ∧ (fixed.lookup t.source_id).isNone = true))
    (hconn : ConnectedTree tree) (v0 : VarId)
    (hv0 : v0 ∈ tree.uniqueVariableIds) (hv0s : (fixed.lookup v0).isSome) :
    ∀ v ∈ tree.uniqueVariableIds, (fixed.lookup v).isSome := by
  intro v hv
  have hreach := hconn v0 hv0 v hv
  clear hv
  induction hreach with
  | refl => exact hv0s
  | tail hab hbc ih =>
    obtain ⟨t, htm, hends⟩ := hbc
    obtain ⟨hdir1, hdir2⟩ := hclosed t htm
    rcases hends with ⟨hs, ht⟩ | ⟨hs, ht⟩
    · subst hs
      subst ht
      have hb := ih
      by_contra hcs
      exact hdir1 ⟨hb, by
        cases hopt : List.lookup t.target_id fixed <;> simp_all⟩
    · subst hs
      subst ht
      have hb := ih
      by_contra hcs
      exact hdir2 ⟨hb, by
        cases hopt : List.lookup t.source_id fixed <;> simp_all⟩

theorem GenOut.bindGen_yields {α β : Type} (g : GenOut α) (f : α → GenOut β) :
    (GenOut.bindGen g f).yields = (GenOut.forEach g.yields f).yields := by
  unfold GenOut.bindGen
  dsimp only
  split <;> rfl

theorem GenOut.mem_bindGen {α β : Type} {g : GenOut α} {f : α → GenOut β} {p : β}
    (h : p ∈ (GenOut.bindGen g f).yields) : ∃ x ∈ g.yields, p ∈ (f x).yields := by
  rw [GenOut.bindGen_yields] at h
  exact GenOut.mem_forEach h

/-- Every mapping yielded by `_do_inline` on a connected tree is total over the
tree's variable ids, provided the starting mapping fixes at least one of them:
mappings only ever grow during frontier expansion, and a mapping can only be
yielded once the frontier is empty, which on a connected graph forces every
tree variable to be fixed. -/
theorem doInline_total (P : BeamSearchParams) (proto : BeamSearchProtocol)
    (tree : RelationalTree) (hconn : ConnectedTree tree) :
    ∀ (fuel : ℕ) (af : List VarId) (fixed : InstantiationMap)
      (order : InstantiationOrderMap) (count : ℕ),
      (∃ v0 ∈ tree.uniqueVariableIds, (fixed.lookup v0).isSome = true) →
      ∀ m ∈ (doInline P proto fuel tree af fixed order count).yields,
        ∀ v ∈ tree.uniqueVariableIds, (m.lookup v).isSome = true := by
  intro fuel
  induction fuel with
  | zero =>
    intro af fixed order count _ m hm
    simp [doInline] at hm
  | succ fuel ih =>
    intro af fixed order count hv0 m hm v hv
    rw [doInline] at hm
    cases hq : queryFrontierVariables P proto tree af fixed with
    | error e => rw [hq] at hm; simp at hm
    | ok cand =>
      rw [hq] at hm
      dsimp only at hm
      by_cases hne : cand.isEmpty = false
      · rw [if_pos hne] at hm
        obtain ⟨inst, _, hbody⟩ := GenOut.mem_forEach hm
        by_cases hnd : valuesNodup (dictUpdate fixed inst) = true
        · rw [if_pos hnd] at hbody
          obtain ⟨v0, hv0m, hv0s⟩ := hv0
          exact ih af (dictUpdate fixed inst) _ (count + 1)
            ⟨v0, hv0m, dictUpdate_lookup_isSome hv0s⟩ m hbody v hv
        · rw [if_neg hnd] at hbody
          simp at hbody
      · rw [if_neg hne] at hm
        have hcand : cand = [] := by
          cases cand with
          | nil => rfl
          | cons a l => simp [List.isEmpty] at hne
        subst hcand
        have hm2 : m = fixed := by
          by_cases hnd : valuesNodup fixed = true
          · rw [if_pos hnd] at hm
            cases hval : isValidMapping P proto tree af fixed order with
            | none => rw [hval] at hm; simp at hm
            | some b =>
              rw [hval] at hm
              cases b with
              | true => simpa using hm
              | false => simp at hm
          · rw [if_neg hnd] at hm
            simp at hm
        rw [hm2]
        -- the empty frontier gives closure of the fixed set under template edges
        unfold queryFrontierVariables at hq
        cases hb : buildFrontier tree fixed with
        | error e => rw [hb] at hq; simp [Bind.bind, Except.bind] at hq
        | ok fr =>
          rw [hb] at hq
          simp only [Bind.bind, Except.bind, pure, Except.pure] at hq
          injection hq with hq
          have hfr : fr = [] := by
            cases fr with
            | nil => rfl
            | cons a l => simp [frontierCandidates] at hq
          subst hfr
          unfold buildFrontier at hb
          obtain ⟨-, hclosed⟩ := frontierFold_nil fixed tree.templates [] hb
          obtain ⟨v0, hv0m, hv0s⟩ := hv0
          exact closure_total tree fixed hclosed hconn v0 hv0m hv0s v hv

/-- Every mapping yielded by `_do_post_hoc` on a connected tree is total over
the tree's variable ids: the factual base mapping already is, and anti-factual
substitution only overrides values of existing keys. -/
theorem doPostHoc_total (P : BeamSearchParams) (proto : BeamSearchProtocol)
    (tree : RelationalTree) (hconn : ConnectedTree tree)
    (fuel : ℕ) (af : List VarId) (fixed : InstantiationMap)
    (order : InstantiationOrderMap) (count : ℕ)
    (hv0 : ∃ v0 ∈ tree.uniqueVariableIds, (fixed.lookup v0).isSome = true) :
    ∀ m ∈ (doPostHoc P proto fuel tree af fixed order count).yields,
      ∀ v ∈ tree.uniqueVariableIds, (m.lookup v).isSome = true := by
  intro m hm v hv
  obtain ⟨mapping, hmem, hbody⟩ := GenOut.mem_bindGen hm
  have hbase := doInline_total P proto tree hconn fuel af fixed order count hv0
    mapping hmem
  cases hafm : (firstOccurrences af).mapM
      (fun w => (afCandidates P tree mapping w).map (fun cand => (w, cand))) with
  | none => rw [hafm] at hbody; simp at hbody
  | some af_mapping =>
    rw [hafm] at hbody
    dsimp only at hbody
    by_cases hne : af_mapping.isEmpty = false
    · rw [if_pos hne] at hbody
      simp only [List.mem_filterMap] at hbody
      obtain ⟨inst, _, heq⟩ := hbody
      by_cases hnd : valuesNodup (dictUpdate mapping inst) = true
      · rw [if_pos hnd] at heq
        injection heq with heq
        rw [← heq]
        exact dictUpdate_lookup_isSome (hbase v hv)
      · rw [if_neg hnd] at heq
        cases heq
    · rw [if_neg hne] at hbody
      by_cases hnd : valuesNodup mapping = true
      · rw [if_pos hnd] at hbody
        have : m = mapping := by simpa using hbody
        rw [this]
        exact hbase v hv
      · rw [if_neg hnd] at hbody
        simp at hbody

/-- Every mapping yielded by `_do_post_hoc` has pairwise-distinct terms. -/
theorem doPostHoc_valuesNodup (P : BeamSearchParams) (proto : BeamSearchProtocol)
    (fuel : ℕ) (tree : RelationalTree) (af : List VarId)
    (fixed : InstantiationMap) (order : InstantiationOrderMap) (count : ℕ) :
    ∀ m ∈ (doPostHoc P proto fuel tree af fixed order count).yields,
      valuesNodup m = true := by
  intro m hm
  obtain ⟨mapping, hmem, hbody⟩ := GenOut.mem_bindGen hm
  cases hafm : (firstOccurrences af).mapM
      (fun w => (afCandidates P tree mapping w).map (fun cand => (w, cand))) with
  | none => rw [hafm] at hbody; simp at hbody
  | some af_mapping =>
    rw [hafm] at hbody
    dsimp only at hbody
    by_cases hne : af_mapping.isEmpty = false
    · rw [if_pos hne] at hbody
      simp only [List.mem_filterMap] at hbody
      obtain ⟨inst, _, heq⟩ := hbody
      by_cases hnd : valuesNodup (dictUpdate mapping inst) = true
      · rw [if_pos hnd] at heq
        injection heq with heq
        rw [← heq]
        exact hnd
      · rw [if_neg hnd] at heq
        cases heq
    · rw [if_neg hne] at hbody
      by_cases hnd : valuesNodup mapping = true
      · rw [if_pos hnd] at hbody
        have : m = mapping := by simpa using hbody
        rw [this]
        exact hnd
      · rw [if_neg hnd] at hbody
        simp at hbody

/-- Claim C2.  For every relational tree whose variable graph is a connected
poly-tree, every anti-factual id set, every seed mapping fixing exactly the
pairing and answer variables (both tree variables, distinct) to distinct
terms, and every instantiator/sorter pair, every mapping yielded by
`BeamSearch.__call__` — under AF_IN_LINE as well as AF_POST_HOC — is total
over the tree's variable ids and assigns pairwise-distinct terms. -/
theorem c2_beam_search_total_distinct (P : BeamSearchParams)
    (proto : BeamSearchProtocol) (fuel : ℕ) (tree : RelationalTree)
    (anti_factual_ids : List VarId) (seed : InstantiationMap)
    (pairing_id answer_id : VarId)
    (hpoly : IsPolyTree tree)
    (hkeys : seed.map (fun kv => kv.1) = [pairing_id, answer_id])
    (hne : pairing_id ≠ answer_id)
    (hpv : pairing_id ∈ tree.uniqueVariableIds)
    (hav : answer_id ∈ tree.uniqueVariableIds)
    (hterms : valuesNodup seed = true) :
    ∀ m ∈ (beamSearchRun P proto fuel tree anti_factual_ids seed).yields,
      (∀ v ∈ tree.uniqueVariableIds, (m.lookup v).isSome = true)
      ∧ valuesNodup m = true := by
  have hseed : (seed.lookup pairing_id).isSome = true := by
    cases seed with
    | nil => simp at hkeys
    | cons a tail =>
      simp only [List.map_cons, List.cons.injEq] at hkeys
      have ha := hkeys.1
      cases a with
      | mk k w =>
        simp only at ha
        subst ha
        simp [List.lookup]
  have hv0 : ∃ v0 ∈ tree.uniqueVariableIds, (seed.lookup v0).isSome = true :=
    ⟨pairing_id, hpv, hseed⟩
  intro m hm
  cases proto with
  | AF_IN_LINE =>
    have hm2 : m ∈ (doInline P .AF_IN_LINE fuel tree anti_factual_ids seed
        (seed.map (fun kv => (kv.1, 0))) 1).yields := hm
    exact ⟨doInline_total P .AF_IN_LINE tree hpoly.1 fuel anti_factual_ids seed
        (seed.map (fun kv => (kv.1, 0))) 1 hv0 m hm2,
      doInline_valuesNodup P .AF_IN_LINE fuel tree anti_factual_ids seed
        (seed.map (fun kv => (kv.1, 0))) 1 m hm2⟩
  | AF_POST_HOC =>
    have hm2 : m ∈ (doPostHoc P .AF_POST_HOC fuel tree anti_factual_ids seed
        (seed.map (fun kv => (kv.1, 0))) 1).yields := hm
    exact ⟨doPostHoc_total P .AF_POST_HOC tree hpoly.1 fuel anti_factual_ids seed
        (seed.map (fun kv => (kv.1, 0))) 1 hv0 m hm2,
      doPostHoc_valuesNodup P .AF_POST_HOC fuel tree anti_factual_ids seed
        (seed.map (fun kv => (kv.1, 0))) 1 m hm2⟩

/-- Connectivity of the one-template example tree used in the witnesses. -/
theorem exampleTree_connected : ConnectedTree ⟨[⟨"A", "r", "B"⟩]⟩ := by
  intro u hu v hv
  obtain ⟨t, htm, hut⟩ := mem_uniqueVariableIds.mp hu
  obtain ⟨s, hsm, hvs⟩ := mem_uniqueVariableIds.mp hv
  simp only [List.mem_singleton] at htm hsm
  subst htm
  subst hsm
  have hadj1 : templateAdj ⟨[⟨"A", "r", "B"⟩]⟩ "A" "B" :=
    ⟨⟨"A", "r", "B"⟩, by simp, Or.inl ⟨rfl, rfl⟩⟩
  have hadj2 : templateAdj ⟨[⟨"A", "r", "B"⟩]⟩ "B" "A" :=
    ⟨⟨"A", "r", "B"⟩, by simp, Or.inr ⟨rfl, rfl⟩⟩
  rcases hut with rfl | rfl <;> rcases hvs with rfl | rfl
  · exact ReachVia.refl _
  · exact ReachVia.tail (ReachVia.refl _) hadj1
  · exact ReachVia.tail (ReachVia.refl _) hadj2
  · exact ReachVia.refl _

/-- Concrete collaborators for the witnesses: the factual instantiator always
answers with the single term "x", and the sorter session concatenates all
query results. -/
def witnessParams : BeamSearchParams :=
  { factualQuery := fun _ => ["x"],
    antiFactualQuery := fun _ => [],
    sortSession := fun _ adds => adds.foldl (fun acc a => acc ++ a.1) [],
    top_k := 0 }

theorem c2_beam_search_total_distinct_witness :
    IsPolyTree ⟨[⟨"A", "r", "B"⟩]⟩
    ∧ ([("A", "x"), ("B", "y")].map
        (fun kv : VarId × Term => kv.1) = ["A", "B"])
    ∧ ("A" : VarId) ≠ "B"
    ∧ "A" ∈ RelationalTree.uniqueVariableIds ⟨[⟨"A", "r", "B"⟩]⟩
    ∧ "B" ∈ RelationalTree.uniqueVariableIds ⟨[⟨"A", "r", "B"⟩]⟩
    ∧ valuesNodup [("A", "x"), ("B", "y")] = true
    ∧ [("A", "x"), ("B", "y")] ∈ (beamSearchRun witnessParams .AF_IN_LINE 3
        ⟨[⟨"A", "r", "B"⟩]⟩ [] [("A", "x"), ("B", "y")]).yields
    ∧ ((List.lookup "A" [("A", "x"), ("B", "y")]).isSome = true
        ∧ valuesNodup [("A", "x"), ("B", "y")] = true) := by
  have hpoly : IsPolyTree ⟨[⟨"A", "r", "B"⟩]⟩ := ⟨exampleTree_connected, by decide⟩
  have hmain := c2_beam_search_total_distinct witnessParams .AF_IN_LINE 3
    ⟨[⟨"A", "r", "B"⟩]⟩ [] [("A", "x"), ("B", "y")] "A" "B" hpoly (by decide)
    (by decide) (by decide) (by decide) (by decide)
    [("A", "x"), ("B", "y")] (by decide)
  exact ⟨hpoly, by decide, by decide, by decide, by decide, by decide, by decide,
    hmain.1 "A" (by decide), hmain.2⟩

/-- base/case.py: `GenericCaseLink` dataclass. -/
structure GenericCaseLink where
  r1_id : RelationId
  r2_id : RelationId
  case : Case
deriving DecidableEq

/-- transforms/generic.py: a `GenericTemplate` of the builder, as its relation
id plus the arena indices of its two `GenericVariable`s (the source identifier
`V{2i}` and target identifier `V{2i+1}` of the i-th created template; the map
n ↦ "V{n}" is injective, so the indices stand for the identifiers). -/
abbrev GTemplate := RelationId × ℕ × ℕ

/-- transforms/generic.py: `GenericTreeTransform._create_templates` — one fresh
two-variable template per distinct relation id, in first-appearance order;
`variable_counter` equals twice the number of templates created. -/
def createTemplates (case_links : List GenericCaseLink) : List GTemplate :=
  case_links.foldl (fun acc cl =>
    let acc2 :=
      if (acc.lookup cl.r1_id).isSome then acc
      else acc ++ [(cl.r1_id, (2 * acc.length, 2 * acc.length + 1))]
    if (acc2.lookup cl.r2_id).isSome then acc2
    else acc2 ++ [(cl.r2_id, (2 * acc2.length, 2 * acc2.length + 1))]) []

/-- transforms/generic.py: the parent-pointer store — `var.parent` is the entry
of `var`, absent when `parent is None` (`has_children` is written but never
read, so it is not modeled). -/
abbrev ParentMap := List (ℕ × ℕ)

/-- transforms/generic.py: the parent assignment of `_do_link_variables`:
`ValueError` (multiple parents) when the linked variable already has one. -/
def assignParent (parents : ParentMap) (linked_var main_var : ℕ) :
    Except Unit ParentMap :=
  if (parents.lookup linked_var).isSome then .error ()
  else .ok (parents ++ [(linked_var, main_var)])

/-- transforms/generic.py: `GenericTreeTransform._do_link_variables` — pick the
(main, linked) variable pair per Case and assign the parent; Case ZERO is a
no-op.  The lookup-failure branch is unreachable (`_create_templates` created
both relation ids of every case link). -/
def doLinkVariables (templates : List GTemplate) (parents : ParentMap)
    (cl : GenericCaseLink) : Except Unit ParentMap :=
  match templates.lookup cl.r1_id, templates.lookup cl.r2_id with
  | some main, some linked =>
    match cl.case with
    | .ZERO => .ok parents
    | .ONE => assignParent parents linked.1 main.2
    | .TWO => assignParent parents linked.2 main.2
    | .THREE => assignParent parents linked.1 main.1
    | .FOUR => assignParent parents linked.2 main.1
  | _, _ => .error ()

/-- transforms/generic.py: `GenericTreeTransform._link_variables`. -/
def linkVariables (templates : List GTemplate)
    (case_links : List GenericCaseLink) : Except Unit ParentMap :=
  case_links.foldlM (doLinkVariables templates) []

/-- The root of a variable's parent chain; `none` when the fuel runs out, which
for fuel `parents.length + 1` happens exactly when the chain has a cycle — the
case where the source's recursive `_resolve_parent` never terminates
(`RecursionError`). -/
def rootOf (parents : ParentMap) : ℕ → ℕ → Option ℕ
  | 0, _ => none
  | fuel + 1, v =>
    match parents.lookup v with
    | none => some v
    | some p => rootOf parents fuel p

/-- transforms/generic.py: the net effect of `_resolve_parents` with its
find-with-path-compression: afterwards every parented variable points directly
at its chain's root (the resolution order does not affect this final state).
The returned map sends each parented template variable to its root; an
unresolvable (cyclic) chain is the escaping `RecursionError`. -/
def resolveParents (templates : List GTemplate) (parents : ParentMap) :
    Except Unit ParentMap :=
  (templates.flatMap (fun t => [t.2.1, t.2.2])).foldlM
    (fun acc v =>
      match parents.lookup v with
      | none => .ok acc
      | some _ =>
        match rootOf parents (parents.length + 1) v with
        | some r => .ok (acc ++ [(v, r)])
        | none => .error ())
    []

/-- The undirected edges `nx.Graph` receives in `_is_valid`: each template's
(source, target) edge plus one (variable, resolved parent) edge per parented
endpoint. -/
def graphEdgeList (templates : List GTemplate) (resolved : ParentMap) :
    List (ℕ × ℕ) :=
  templates.flatMap (fun t =>
    [(t.2.1, t.2.2)]
      ++ (match resolved.lookup t.2.1 with
          | some p => [(t.2.1, p)]
          | none => [])
      ++ (match resolved.lookup t.2.2 with
          | some p => [(t.2.2, p)]
          | none => []))

/-- Undirected edge normalization (nx.Graph identifies (u, v) with (v, u) and
keeps a single copy of parallel edges). -/
def normEdge (e : ℕ × ℕ) : ℕ × ℕ :=
  if e.1 ≤ e.2 then e else (e.2, e.1)

/-- The node set of the `_is_valid` graph (every node arrives via `add_edge`). -/
def graphNodes (raw : List (ℕ × ℕ)) : Finset ℕ :=
  (raw.flatMap (fun e => [e.1, e.2])).toFinset

/-- The deduplicated undirected edge set of the `_is_valid` graph. -/
def graphEdges (raw : List (ℕ × ℕ)) : Finset (ℕ × ℕ) :=
  (raw.map normEdge).toFinset

/-- Expansion of a reached set by one undirected edge. -/
def bfsUpd (acc : Finset ℕ) (e : ℕ × ℕ) : Finset ℕ :=
  if e.1 ∈ acc then insert e.2 acc
  else if e.2 ∈ acc then insert e.1 acc
  else acc

/-- One expansion step of breadth-first reachability over an edge list. -/
def bfsStep (edges : List (ℕ × ℕ)) (s : Finset ℕ) : Finset ℕ :=
  edges.foldl bfsUpd s

/-- Iterated breadth-first reachability (`nx.is_connected` computes the
component of an arbitrary start node; `graphNodes.card` steps saturate). -/
def bfsReach (edges : List (ℕ × ℕ)) : ℕ → Finset ℕ → Finset ℕ
  | 0, s => s
  | fuel + 1, s => bfsStep edges (bfsReach edges fuel s)

/-- transforms/generic.py: `GenericTreeTransform._is_valid` — `nx.is_tree` on
the endpoint graph: raises `NetworkXPointlessConcept` on the empty graph
(modeled as `Except.error`), otherwise requires exactly `nodes - 1` edges and
connectivity. -/
def isValidGeneric (templates : List GTemplate) (resolved : ParentMap) :
    Except Unit Bool :=
  let raw := graphEdgeList templates resolved
  match raw with
  | [] => .error ()
  | e :: _ =>
    let nodes := graphNodes raw
    .ok (decide ((graphEdges raw).card + 1 = nodes.card)
      && decide (nodes ⊆ bfsReach raw nodes.card {e.1}))

/-- transforms/generic.py: `GenericTreeTransform._cleanup` — replace every
parented endpoint by its (resolved) parent. -/
def cleanupTemplates (templates : List GTemplate) (resolved : ParentMap) :
    List GTemplate :=
  templates.map (fun t =>
    (t.1,
      (match resolved.lookup t.2.1 with
       | some p => p
       | none => t.2.1),
      (match resolved.lookup t.2.2 with
       | some p => p
       | none => t.2.2)))

/-- Outcome of `GenericTreeTransform.__call__`: a built tree, `None`, or an
exception other than the caught `ValueError` escaping the call
(`RecursionError` from a cyclic parent chain, `NetworkXPointlessConcept` from
an empty graph). -/
inductive GenericBuildResult
  | tree (templates : List GTemplate)
  | noTree
  | crash
deriving DecidableEq

/-- transforms/generic.py: `GenericTreeTransform.__call__` — create templates,
link variables (a `ValueError` is caught and gives `None`), resolve parents,
validate, clean up. -/
def genericTreeTransform (case_links : List GenericCaseLink) :
    GenericBuildResult :=
  let templates := createTemplates case_links
  match linkVariables templates case_links with
  | .error _ => .noTree
  | .ok parents =>
    match resolveParents templates parents with
    | .error _ => .crash
    | .ok resolved =>
      match isValidGeneric templates resolved with
      | .error _ => .crash
      | .ok true => .tree (cleanupTemplates templates resolved)
      | .ok false => .noTree

/-- The endpoints that the non-ZERO case links of a sequence assign a parent
to, in order; "the sequence assigns at most one parent to every endpoint"
means this list has no duplicates. -/
def linkAssignments (templates : List GTemplate)
    (case_links : List GenericCaseLink) : List ℕ :=
  case_links.filterMap (fun cl =>
    match templates.lookup cl.r1_id, templates.lookup cl.r2_id with
    | some _, some linked =>
      match cl.case with
      | .ZERO => none
      | .ONE => some linked.1
      | .TWO => some linked.2
      | .THREE => some linked.1
      | .FOUR => some linked.2
    | _, _ => none)

/-- Adjacency along an undirected edge list. -/
def edgeAdj (edges : List (ℕ × ℕ)) (u v : ℕ) : Prop :=
  (u, v) ∈ edges ∨ (v, u) ∈ edges

/-- The specification-side acceptance condition of the generic-tree builder:
every endpoint receives at most one parent, parent resolution terminates, and
the resolved endpoint graph (template edges plus parent edges over
representatives) is connected and acyclic — acyclicity of a connected
multigraph being equivalent to having exactly one edge less than nodes. -/
def SpecAccepts (case_links : List GenericCaseLink) : Prop :=
  (linkAssignments (createTemplates case_links) case_links).Nodup ∧
  ∃ parents, linkVariables (createTemplates case_links) case_links = .ok parents ∧
  ∃ resolved, resolveParents (createTemplates case_links) parents = .ok resolved ∧
    ((graphNodes (graphEdgeList (createTemplates case_links) resolved)).Nonempty ∧
     (∀ u ∈ graphNodes (graphEdgeList (createTemplates case_links) resolved),
      ∀ v ∈ graphNodes (graphEdgeList (createTemplates case_links) resolved),
        ReachVia (edgeAdj (graphEdgeList (createTemplates case_links) resolved)) u v) ∧
     (graphEdges (graphEdgeList (createTemplates case_links) resolved)).card + 1
       = (graphNodes (graphEdgeList (createTemplates case_links) resolved)).card)

theorem ReachVia.trans {α : Type} {adj : α → α → Prop} {a b c : α}
    (hab : ReachVia adj a b) (hbc : ReachVia adj b c) : ReachVia adj a c := by
  induction hbc with
  | refl => exact hab
  | tail _ h2 ih => exact ReachVia.tail ih h2

theorem ReachVia.single {α : Type} {adj : α → α → Prop} {a b : α}
    (h : adj a b) : ReachVia adj a b :=
  ReachVia.tail (ReachVia.refl a) h

theorem ReachVia.symmOf {α : Type} {adj : α → α → Prop}
    (hsym : ∀ x y, adj x y → adj y x) {a b : α}
    (h : ReachVia adj a b) : ReachVia adj b a := by
  induction h with
  | refl => exact ReachVia.refl _
  | tail _ h2 ih => exact ReachVia.trans (ReachVia.single (hsym _ _ h2)) ih

theorem edgeAdj_symm (edges : List (ℕ × ℕ)) (u v : ℕ)
    (h : edgeAdj edges u v) : edgeAdj edges v u := by
  rcases h with h | h
  · exact Or.inr h
  · exact Or.inl h

theorem subset_bfsUpd (acc : Finset ℕ) (e : ℕ × ℕ) : acc ⊆ bfsUpd acc e := by
  unfold bfsUpd
  split_ifs <;> first | exact Finset.subset_insert _ _ | exact Finset.Subset.refl _

theorem mem_bfsUpd {acc : Finset ℕ} {e : ℕ × ℕ} {x : ℕ}
    (h : x ∈ bfsUpd acc e) :
    x ∈ acc ∨ (x = e.2 ∧ e.1 ∈ acc) ∨ (x = e.1 ∧ e.2 ∈ acc) := by
  unfold bfsUpd at h
  split_ifs at h with h1 h2
  · rcases Finset.mem_insert.mp h with h | h
    · exact Or.inr (Or.inl ⟨h, h1⟩)
    · exact Or.inl h
  · rcases Finset.mem_insert.mp h with h | h
    · exact Or.inr (Or.inr ⟨h, h2⟩)
    · exact Or.inl h
  · exact Or.inl h

theorem subset_foldl_bfsUpd : ∀ (es : List (ℕ × ℕ)) (acc : Finset ℕ),
    acc ⊆ es.foldl bfsUpd acc := by
  intro es
  induction es with
  | nil => intro acc; exact Finset.Subset.refl _
  | cons e rest ih =>
    intro acc
    exact (subset_bfsUpd acc e).trans (ih (bfsUpd acc e))

theorem subset_bfsStep (edges : List (ℕ × ℕ)) (s : Finset ℕ) :
    s ⊆ bfsStep edges s :=
  subset_foldl_bfsUpd edges s

theorem foldl_bfsUpd_sound (edges : List (ℕ × ℕ)) (u : ℕ) :
    ∀ (es : List (ℕ × ℕ)), (∀ e ∈ es, e ∈ edges) →
      ∀ (acc : Finset ℕ), (∀ y ∈ acc, ReachVia (edgeAdj edges) u y) →
        ∀ x ∈ es.foldl bfsUpd acc, ReachVia (edgeAdj edges) u x := by
  intro es
  induction es with
  | nil => intro _ acc hacc x hx; exact hacc x hx
  | cons e rest ih =>
    intro hes acc hacc x hx
    refine ih (fun f hf => hes f (List.mem_cons_of_mem e hf)) (bfsUpd acc e) ?_ x hx
    intro y hy
    rcases mem_bfsUpd hy with hy | ⟨rfl, h1⟩ | ⟨rfl, h2⟩
    · exact hacc y hy
    · exact ReachVia.tail (hacc e.1 h1) (Or.inl (hes e (List.mem_cons_self e rest)))
    · exact ReachVia.tail (hacc e.2 h2) (Or.inr (hes e (List.mem_cons_self e rest)))

theorem bfsStep_sound (edges : List (ℕ × ℕ)) (u : ℕ) (s : Finset ℕ)
    (hs : ∀ y ∈ s, ReachVia (edgeAdj edges) u y) :
    ∀ x ∈ bfsStep edges s, ReachVia (edgeAdj edges) u x :=
  foldl_bfsUpd_sound edges u edges (fun _ h => h) s hs

theorem foldl_bfsUpd_complete :
    ∀ (es : List (ℕ × ℕ)) (acc : Finset ℕ) (e : ℕ × ℕ), e ∈ es →
      (e.1 ∈ acc → e.2 ∈ es.foldl bfsUpd acc) ∧
      (e.2 ∈ acc → e.1 ∈ es.foldl bfsUpd acc) := by
  intro es
  induction es with
  | nil => intro acc e he; simp at he
  | cons f rest ih =>
    intro acc e he
    rcases List.mem_cons.mp he with rfl | her
    · constructor
      · intro h1
        apply subset_foldl_bfsUpd rest (bfsUpd acc e)
        unfold bfsUpd
        rw [if_pos h1]
        exact Finset.mem_insert_self _ _
      · intro h2
        apply subset_foldl_bfsUpd rest (bfsUpd acc e)
        unfold bfsUpd
        by_cases h1 : e.1 ∈ acc
        · rw [if_pos h1]
          exact Finset.mem_insert_of_mem h1
        · rw [if_neg h1, if_pos h2]
          exact Finset.mem_insert_self _ _
    · have hsub := subset_bfsUpd acc f
      have := ih (bfsUpd acc f) e her
      exact ⟨fun h1 => this.1 (hsub h1), fun h2 => this.2 (hsub h2)⟩

theorem bfsStep_fix_closed {edges : List (ℕ × ℕ)} {s : Finset ℕ}
    (hfix : bfsStep edges s = s) :
    ∀ e ∈ edges, (e.1 ∈ s → e.2 ∈ s) ∧ (e.2 ∈ s → e.1 ∈ s) := by
  intro e he
  have := foldl_bfsUpd_complete edges s e he
  rw [show edges.foldl bfsUpd s = bfsStep edges s from rfl, hfix] at this
  exact this

theorem subset_bfsReach (edges : List (ℕ × ℕ)) :
    ∀ (fuel : ℕ) (s : Finset ℕ), s ⊆ bfsReach edges fuel s := by
  intro fuel
  induction fuel with
  | zero => intro s; exact Finset.Subset.refl _
  | succ fuel ih =>
    intro s
    exact (ih s).trans (subset_bfsStep edges (bfsReach edges fuel s))

theorem bfsReach_sound (edges : List (ℕ × ℕ)) (u : ℕ) :
    ∀ (fuel : ℕ) (s : Finset ℕ), (∀ y ∈ s, ReachVia (edgeAdj edges) u y) →
      ∀ x ∈ bfsReach edges fuel s, ReachVia (edgeAdj edges) u x := by
  intro fuel
  induction fuel with
  | zero => intro s hs; exact hs
  | succ fuel ih =>
    intro s hs
    exact bfsStep_sound edges u (bfsReach edges fuel s) (ih s hs)

theorem bfsReach_fix_stable (edges : List (ℕ × ℕ)) (s : Finset ℕ) (k : ℕ)
    (hfix : bfsStep edges (bfsReach edges k s) = bfsReach edges k s) :
    ∀ j, bfsReach edges (k + j) s = bfsReach edges k s := by
  intro j
  induction j with
  | zero => rfl
  | succ j ih =>
    have : k + (j + 1) = (k + j) + 1 := by omega
    rw [this]
    show bfsStep edges (bfsReach edges (k + j) s) = bfsReach edges k s
    rw [ih, hfix]

theorem foldl_bfsUpd_endpoints :
    ∀ (es : List (ℕ × ℕ)) (acc : Finset ℕ) (x : ℕ),
      x ∈ es.foldl bfsUpd acc → x ∈ acc ∨ x ∈ graphNodes es := by
  intro es
  induction es with
  | nil => intro acc x hx; exact Or.inl hx
  | cons e rest ih =>
    intro acc x hx
    rcases ih (bfsUpd acc e) x hx with hx2 | hx2
    · rcases mem_bfsUpd hx2 with h | ⟨rfl, _⟩ | ⟨rfl, _⟩
      · exact Or.inl h
      · refine Or.inr ?_
        simp [graphNodes]
      · refine Or.inr ?_
        simp [graphNodes]
    · refine Or.inr ?_
      simp only [graphNodes, List.mem_toFinset, List.mem_flatMap] at hx2 ⊢
      obtain ⟨f, hf, hxf⟩ := hx2
      exact ⟨f, List.mem_cons_of_mem e hf, hxf⟩

theorem bfsReach_subset_nodes (edges : List (ℕ × ℕ)) :
    ∀ (fuel : ℕ) (s : Finset ℕ), s ⊆ graphNodes edges →
      bfsReach edges fuel s ⊆ graphNodes edges := by
  intro fuel
  induction fuel with
  | zero => intro s hs; exact hs
  | succ fuel ih =>
    intro s hs x hx
    rcases foldl_bfsUpd_endpoints edges (bfsReach edges fuel s) x hx with hx2 | hx2
    · exact ih s hs hx2
    · exact hx2

/-- Strict growth of the reached set cannot continue past the node count:
after `(graphNodes edges).card` steps the reached set is a fixpoint. -/
theorem bfsReach_saturates (edges : List (ℕ × ℕ)) (s : Finset ℕ)
    (hs : s ⊆ graphNodes edges) (hne : s.Nonempty) :
    bfsStep edges (bfsReach edges (graphNodes edges).card s)
      = bfsReach edges (graphNodes edges).card s := by
  set N := (graphNodes edges).card with hN
  by_cases hfix : ∃ k, k < N ∧
      bfsStep edges (bfsReach edges k s) = bfsReach edges k s
  · obtain ⟨k, hk, hfixk⟩ := hfix
    have hstable := bfsReach_fix_stable edges s k hfixk
    have h1 : bfsReach edges N s = bfsReach edges k s := by
      have : N = k + (N - k) := by omega
      rw [this]
      exact hstable (N - k)
    rw [h1]
    exact hfixk
  · push_neg at hfix
    have hgrow : ∀ k, k ≤ N → s.card + k ≤ (bfsReach edges k s).card := by
      intro k
      induction k with
      | zero => intro _; simp [bfsReach]
      | succ k ih =>
        intro hk
        have hlt : k < N := by omega
        have hne2 := hfix k hlt
        have hsub : bfsReach edges k s ⊆ bfsReach edges (k + 1) s :=
          subset_bfsStep edges (bfsReach edges k s)
        have hssub : bfsReach edges k s ⊂ bfsReach edges (k + 1) s :=
          ⟨hsub, fun hrev => hne2 (Finset.Subset.antisymm hrev
            (subset_bfsStep edges (bfsReach edges k s)))⟩
        have hclt := Finset.card_lt_card hssub
        have hih := ih (by omega)
        omega
    have hcardle : (bfsReach edges N s).card ≤ N := by
      rw [hN]
      exact Finset.card_le_card (bfsReach_subset_nodes edges N s hs)
    have hgN := hgrow N (le_refl N)
    have hcard_pos : 1 ≤ s.card := Finset.card_pos.mpr hne
    omega

/-- Reachability completeness of the saturated breadth-first set. -/
theorem bfsReach_complete (edges : List (ℕ × ℕ)) (start v : ℕ)
    (hstart : start ∈ graphNodes edges)
    (h : ReachVia (edgeAdj edges) start v) :
    v ∈ bfsReach edges (graphNodes edges).card {start} := by
  have hfix := bfsReach_saturates edges {start}
    (by simpa using hstart) ⟨start, Finset.mem_singleton_self start⟩
  have hclosed := bfsStep_fix_closed hfix
  induction h with
  | refl =>
    exact subset_bfsReach edges (graphNodes edges).card {start}
      (Finset.mem_singleton_self start)
  | tail _ h2 ih =>
    rcases h2 with h2 | h2
    · exact (hclosed _ h2).1 ih
    · exact (hclosed _ h2).2 ih

/-- `nx.is_tree` in `_is_valid` succeeds with `True` exactly when the graph is
nonempty, pairwise connected, and has one edge less than nodes. -/
theorem isValidGeneric_ok_true_iff (templates : List GTemplate)
    (resolved : ParentMap) :
    isValidGeneric templates resolved = .ok true ↔
      ((graphNodes (graphEdgeList templates resolved)).Nonempty ∧
       (∀ u ∈ graphNodes (graphEdgeList templates resolved),
        ∀ v ∈ graphNodes (graphEdgeList templates resolved),
          ReachVia (edgeAdj (graphEdgeList templates resolved)) u v) ∧
       (graphEdges (graphEdgeList templates resolved)).card + 1
         = (graphNodes (graphEdgeList templates resolved)).card) := by
  obtain hnil | ⟨e, rest, hraw⟩ :
      graphEdgeList templates resolved = []
        ∨ ∃ e rest, graphEdgeList templates resolved = e :: rest := by
    cases graphEdgeList templates resolved with
    | nil => exact Or.inl rfl
    | cons a l => exact Or.inr ⟨a, l, rfl⟩
  · constructor
    · intro h
      unfold isValidGeneric at h
      rw [hnil] at h
      cases h
    · rintro ⟨hne, -, -⟩
      exfalso
      obtain ⟨x, hx⟩ := hne
      rw [hnil] at hx
      simp [graphNodes] at hx
  ·
    have hstart : e.1 ∈ graphNodes (graphEdgeList templates resolved) := by
      rw [hraw]
      simp [graphNodes]
    have hval : isValidGeneric templates resolved
        = .ok (decide ((graphEdges (graphEdgeList templates resolved)).card + 1
            = (graphNodes (graphEdgeList templates resolved)).card)
          && decide (graphNodes (graphEdgeList templates resolved)
            ⊆ bfsReach (graphEdgeList templates resolved)
                (graphNodes (graphEdgeList templates resolved)).card {e.1})) := by
      unfold isValidGeneric
      rw [hraw]
    rw [hval]
    constructor
    · intro h
      injection h with h
      rw [Bool.and_eq_true, decide_eq_true_eq, decide_eq_true_eq] at h
      obtain ⟨hcard, hconn⟩ := h
      refine ⟨⟨e.1, hstart⟩, ?_, hcard⟩
      intro u hu v hv
      have hrs : ∀ x ∈ graphNodes (graphEdgeList templates resolved),
          ReachVia (edgeAdj (graphEdgeList templates resolved)) e.1 x := by
        intro x hx
        refine bfsReach_sound _ e.1 _ {e.1} ?_ x (hconn hx)
        intro y hy
        rw [Finset.mem_singleton] at hy
        rw [hy]
        exact ReachVia.refl _
      exact ReachVia.trans
        (ReachVia.symmOf (edgeAdj_symm _) (hrs u hu)) (hrs v hv)
    · rintro ⟨-, hconn, hcard⟩
      have hb : (decide ((graphEdges (graphEdgeList templates resolved)).card + 1
            = (graphNodes (graphEdgeList templates resolved)).card)
          && decide (graphNodes (graphEdgeList templates resolved)
            ⊆ bfsReach (graphEdgeList templates resolved)
                (graphNodes (graphEdgeList templates resolved)).card {e.1}))
          = true := by
        rw [Bool.and_eq_true, decide_eq_true_eq, decide_eq_true_eq]
        refine ⟨hcard, ?_⟩
        intro v hv
        exact bfsReach_complete _ e.1 v hstart (hconn e.1 hstart v hv)
      rw [hb]

theorem lookup_none_not_mem_keys {β : Type} {l : List (ℕ × β)} {k : ℕ}
    (h : l.lookup k = none) : k ∉ l.map (fun kv => kv.1) := by
  induction l with
  | nil => simp
  | cons kv rest ih =>
    simp only [List.lookup] at h
    by_cases hk : k = kv.1
    · simp [hk] at h
    · have hb : (k == kv.1) = false := by simp [hk]
      rw [hb] at h
      simp only [List.map_cons, List.mem_cons]
      push_neg
      exact ⟨hk, ih h⟩

/-- If the linking loop finishes without a `ValueError`, the endpoints assigned
parents (on top of those already parented) are pairwise distinct. -/
theorem linkFold_nodup (templates : List GTemplate) :
    ∀ (links : List GenericCaseLink) (parents ps : ParentMap),
      links.foldlM (doLinkVariables templates) parents = .ok ps →
      (parents.map (fun kv => kv.1)).Nodup →
      ((parents.map (fun kv => kv.1)) ++ linkAssignments templates links).Nodup := by
  intro links
  induction links with
  | nil =>
    intro parents ps h hnd
    simpa [linkAssignments] using hnd
  | cons cl rest ih =>
    intro parents ps h hnd
    rw [List.foldlM_cons] at h
    cases hstep : doLinkVariables templates parents cl with
    | error e =>
      rw [hstep] at h
      simp [Bind.bind, Except.bind] at h
    | ok parents2 =>
      rw [hstep] at h
      simp only [Bind.bind, Except.bind] at h
      unfold doLinkVariables at hstep
      cases h1 : templates.lookup cl.r1_id with
      | none =>
        rw [h1] at hstep
        cases hstep
      | some main =>
        rw [h1] at hstep
        cases h2 : templates.lookup cl.r2_id with
        | none =>
          rw [h2] at hstep
          cases hstep
        | some linked =>
          rw [h2] at hstep
          dsimp only at hstep
          have hassign : ∀ (v mv : ℕ),
              assignParent parents v mv = .ok parents2 →
              ((parents.map (fun kv => kv.1))
                ++ (v :: linkAssignments templates rest)).Nodup := by
            intro v mv ha
            unfold assignParent at ha
            by_cases hin : (parents.lookup v).isSome = true
            · rw [if_pos hin] at ha
              cases ha
            · rw [if_neg hin] at ha
              injection ha with ha
              have hvnot : v ∉ parents.map (fun kv => kv.1) := by
                apply lookup_none_not_mem_keys
                cases hl : parents.lookup v with
                | none => rfl
                | some w => rw [hl] at hin; simp at hin
              have hnd2 : ((parents ++ [(v, mv)]).map (fun kv => kv.1)).Nodup := by
                rw [List.map_append]
                simp only [List.map_cons, List.map_nil]
                rw [List.nodup_append]
                refine ⟨hnd, List.nodup_singleton v, ?_⟩
                intro a ha hav
                rw [List.mem_singleton] at hav
                exact hvnot (hav ▸ ha)
              have hres := ih (parents ++ [(v, mv)]) ps (by rw [ha]; exact h) hnd2
              rw [List.map_append] at hres
              simp only [List.map_cons, List.map_nil] at hres
              rw [List.append_assoc] at hres
              simpa using hres
          cases hcase : cl.case with
          | ZERO =>
            rw [hcase] at hstep
            injection hstep with hstep
            subst hstep
            have hres := ih parents ps h hnd
            unfold linkAssignments
            rw [List.filterMap_cons]
            simp only [h1, h2, hcase]
            exact hres
          | ONE =>
            rw [hcase] at hstep
            have hres := hassign linked.1 main.2 hstep
            unfold linkAssignments
            rw [List.filterMap_cons]
            simp only [h1, h2, hcase]
            exact hres
          | TWO =>
            rw [hcase] at hstep
            have hres := hassign linked.2 main.2 hstep
            unfold linkAssignments
            rw [List.filterMap_cons]
            simp only [h1, h2, hcase]
            exact hres
          | THREE =>
            rw [hcase] at hstep
            have hres := hassign linked.1 main.1 hstep
            unfold linkAssignments
            rw [List.filterMap_cons]
            simp only [h1, h2, hcase]
            exact hres
          | FOUR =>
            rw [hcase] at hstep
            have hres := hassign linked.2 main.1 hstep
            unfold linkAssignments
            rw [List.filterMap_cons]
            simp only [h1, h2, hcase]
            exact hres

theorem linkVariables_ok_nodup {templates : List GTemplate}
    {links : List GenericCaseLink} {ps : ParentMap}
    (h : linkVariables templates links = .ok ps) :
    (linkAssignments templates links).Nodup := by
  have := linkFold_nodup templates links [] ps h (by simp)
  simpa using this

/-- Claim C3.  `GenericTreeTransform.__call__` returns a GenericTree exactly
when linking assigns at most one parent to every endpoint (equivalently, the
caught `ValueError` does not fire), parent resolution terminates, and the
resolved endpoint graph — template edges plus parent edges over
representatives — is nonempty, connected, and acyclic (edge count one less
than node count).  In particular: a sequence assigning two parents to one
endpoint returns None with no exception escaping; two distinct relations
joined by any single non-ZERO case link build a tree; and a single Case ZERO
link over two otherwise-unlinked relations returns None (disconnected). -/
theorem c3_generic_tree_builder :
    (∀ case_links : List GenericCaseLink,
      (∃ ts, genericTreeTransform case_links = GenericBuildResult.tree ts)
        ↔ SpecAccepts case_links)
    ∧ (∀ case_links : List GenericCaseLink,
        ¬ (linkAssignments (createTemplates case_links) case_links).Nodup →
        genericTreeTransform case_links = GenericBuildResult.noTree)
    ∧ (∀ c : Case, c ≠ Case.ZERO →
        ∃ ts, genericTreeTransform [⟨"R0", "R1", c⟩] = GenericBuildResult.tree ts)
    ∧ genericTreeTransform [⟨"R0", "R1", Case.ZERO⟩] = GenericBuildResult.noTree := by
  refine ⟨?_, ?_, ?_, by decide⟩
  · intro links
    constructor
    · rintro ⟨ts, hts⟩
      unfold genericTreeTransform at hts
      dsimp only at hts
      cases hlink : linkVariables (createTemplates links) links with
      | error e => rw [hlink] at hts; cases hts
      | ok parents =>
        rw [hlink] at hts
        dsimp only at hts
        cases hres : resolveParents (createTemplates links) parents with
        | error e => rw [hres] at hts; cases hts
        | ok resolved =>
          rw [hres] at hts
          dsimp only at hts
          cases hv : isValidGeneric (createTemplates links) resolved with
          | error e => rw [hv] at hts; cases hts
          | ok b =>
            rw [hv] at hts
            cases b with
            | false => cases hts
            | true =>
              exact ⟨linkVariables_ok_nodup hlink, parents, hlink, resolved, hres,
                (isValidGeneric_ok_true_iff _ _).mp hv⟩
    · rintro ⟨hnd, parents, hlink, resolved, hres, hspec⟩
      unfold genericTreeTransform
      dsimp only
      rw [hlink]
      dsimp only
      rw [hres]
      dsimp only
      rw [(isValidGeneric_ok_true_iff _ _).mpr hspec]
      exact ⟨_, rfl⟩
  · intro links hnd
    unfold genericTreeTransform
    dsimp only
    cases hlink : linkVariables (createTemplates links) links with
    | error e => rfl
    | ok parents => exact absurd (linkVariables_ok_nodup hlink) hnd
  · intro c hc
    cases c with
    | ZERO => exact absurd rfl hc
    | ONE => exact ⟨[("R0", 0, 1), ("R1", 1, 3)], by decide⟩
    | TWO => exact ⟨[("R0", 0, 1), ("R1", 2, 1)], by decide⟩
    | THREE => exact ⟨[("R0", 0, 1), ("R1", 0, 3)], by decide⟩
    | FOUR => exact ⟨[("R0", 0, 1), ("R1", 2, 0)], by decide⟩


/-- components/sorter.py: the mutable state of `SemanticDistanceSorter` — the
`collection` dict (term → list of scored distances, insertion-ordered) and the
`count` of `add_query_result` calls since `new_collection`. -/
structure SDState where
  collection : List (Term × List ℚ)
  count : ℕ

/-- components/sorter.py: `SemanticDistanceSorter.new_collection`. -/
def sdNew : SDState := ⟨[], 0⟩

/-- Python `collection.setdefault(term, []).append(d)`: extend the term's list
in place, or append a fresh entry. -/
def addDist (c : List (Term × List ℚ)) (term : Term) (d : ℚ) :
    List (Term × List ℚ) :=
  match c with
  | [] => [(term, [d])]
  | (t, ds) :: rest =>
    if t = term then (t, ds ++ [d]) :: rest
    else (t, ds) :: addDist rest term d

/-- components/sorter.py: `SemanticDistanceSorter.add_query_result` — bump the
count and record `abs(target - distance)` for every term of the result set
(modeled as a duplicate-free list).  The semantic distances are abstract
rationals (the claim does not depend on their values, only on which terms get
an entry). -/
def sdAdd (target : ℚ) (semdist : Term → Query → Option Term → ℚ)
    (st : SDState) (result : QueryResult) (query : Query)
    (query_existing_term : Option Term) : SDState :=
  { count := st.count + 1,
    collection := result.foldl
      (fun c term => addDist c term |target - semdist term query query_existing_term|)
      st.collection }

/-- components/sorter.py: `SemanticDistanceSorter.sort_collection` — keep the
terms whose distance list has exactly `count` entries (one per query), score
them with the aggregator, and return the terms sorted by ascending score. -/
def sdSortCollection (aggregator : List ℚ → ℚ) (st : SDState) : List Term :=
  ((st.collection.filter (fun kv => kv.2.length = st.count)).map
      (fun kv => (kv.1, aggregator kv.2))).mergeSort (fun a b => a.2 ≤ b.2)
    |>.map (fun kv => kv.1)

/-- A whole `SemanticDistanceSorter` round: `new_collection`, the given
`add_query_result` calls in order, then `sort_collection`. -/
def sdRound (target : ℚ) (semdist : Term → Query → Option Term → ℚ)
    (aggregator : List ℚ → ℚ)
    (adds : List (QueryResult × Query × Option Term)) : List Term :=
  sdSortCollection aggregator
    (adds.foldl (fun st a => sdAdd target semdist st a.1 a.2.1 a.2.2) sdNew)

/-- components/sorter.py: `RandomUnSorter` state is just the list of added
result sets; `sort_collection` is `sorted(set.intersection(*collection))`
followed by `random.shuffle` — the shuffle is abstracted as a function assumed
to permute its input.  On an empty collection the source raises `TypeError`
(`set.intersection` with no arguments); the claims only cover at least one
`add_query_result` call. -/
def interAll : List (List Term) → List Term
  | [] => []
  | x :: xs => xs.foldl (fun acc r => acc.filter (fun t => t ∈ r)) x

def randomUnSorterRound (shuffle : List Term → List Term)
    (results : List (List Term)) : List Term :=
  shuffle ((interAll results).mergeSort (fun a b => a ≤ b))

theorem lookup_of_mem_keys_nodup {β : Type} {c : List (Term × β)} {t : Term}
    {ds : β} (hnd : (c.map (fun kv => kv.1)).Nodup) (hmem : (t, ds) ∈ c) :
    c.lookup t = some ds := by
  induction c with
  | nil => simp at hmem
  | cons kv rest ih =>
    simp only [List.map_cons, List.nodup_cons] at hnd
    rcases List.mem_cons.mp hmem with heq | hr
    · rw [← heq]
      simp [List.lookup]
    · have hne : t ≠ kv.1 := by
        intro hc
        exact hnd.1 (hc ▸ (List.mem_map.mpr ⟨(t, ds), hr, rfl⟩))
      simp only [List.lookup]
      have hb : (t == kv.1) = false := by simp [hne]
      rw [hb]
      exact ih hnd.2 hr

/-- Length of a term's recorded-distance list, zero when absent. -/
def optLen (o : Option (List ℚ)) : ℕ := (o.getD []).length

theorem addDist_lookup (c : List (Term × List ℚ)) (term : Term) (d : ℚ)
    (t : Term) :
    (addDist c term d).lookup t =
      if t = term then some ((c.lookup t).getD [] ++ [d]) else c.lookup t := by
  induction c with
  | nil =>
    by_cases ht : t = term
    · simp [addDist, List.lookup, ht]
    · have hb : (t == term) = false := by simp [ht]
      simp [addDist, List.lookup, ht, hb]
  | cons kv rest ih =>
    cases kv with
    | mk t0 ds =>
      simp only [addDist]
      by_cases h0 : t0 = term
      · subst h0
        rw [if_pos rfl]
        by_cases ht : t = t0
        · subst ht
          simp [List.lookup]
        · have hb : (t == t0) = false := by simp [ht]
          simp [List.lookup, hb, ht]
      · rw [if_neg h0]
        by_cases ht : t = t0
        · subst ht
          simp [List.lookup, h0]
        · have hb : (t == t0) = false := by simp [ht]
          simp only [List.lookup, hb]
          exact ih

theorem addDist_keys (c : List (Term × List ℚ)) (term : Term) (d : ℚ) :
    (addDist c term d).map (fun kv => kv.1) =
      if term ∈ c.map (fun kv => kv.1) then c.map (fun kv => kv.1)
      else c.map (fun kv => kv.1) ++ [term] := by
  induction c with
  | nil => simp [addDist]
  | cons kv rest ih =>
    cases kv with
    | mk t0 ds =>
      simp only [addDist]
      by_cases h0 : t0 = term
      · subst h0
        simp
      · have hne : term ≠ t0 := fun hc => h0 hc.symm
        simp only [List.map_cons, List.mem_cons, if_neg h0]
        rw [ih]
        by_cases hmem : term ∈ rest.map (fun kv => kv.1)
        · simp [hmem, hne]
        · simp [hmem, hne]

theorem foldAdd_optLen (dfun : Term → ℚ) :
    ∀ (r : List Term), r.Nodup → ∀ (c : List (Term × List ℚ)) (t : Term),
      optLen ((r.foldl (fun c term => addDist c term (dfun term)) c).lookup t)
        = optLen (c.lookup t) + (if t ∈ r then 1 else 0) := by
  intro r
  induction r with
  | nil => intro _ c t; simp
  | cons x xs ih =>
    intro hnd c t
    rw [List.nodup_cons] at hnd
    rw [List.foldl_cons]
    rw [ih hnd.2 (addDist c x (dfun x)) t]
    rw [addDist_lookup]
    by_cases ht : t = x
    · subst ht
      have hxs : t ∉ xs := hnd.1
      simp [optLen, hxs]
    · have : (t ∈ x :: xs) ↔ (t ∈ xs) := by simp [ht]
      simp [ht, this]

theorem foldAdd_keys_nodup (dfun : Term → ℚ) :
    ∀ (r : List Term) (c : List (Term × List ℚ)),
      (c.map (fun kv => kv.1)).Nodup →
      (((r.foldl (fun c term => addDist c term (dfun term)) c)).map
          (fun kv => kv.1)).Nodup := by
  intro r
  induction r with
  | nil => intro c h; exact h
  | cons x xs ih =>
    intro c h
    rw [List.foldl_cons]
    refine ih (addDist c x (dfun x)) ?_
    rw [addDist_keys]
    by_cases hmem : x ∈ c.map (fun kv => kv.1)
    · rw [if_pos hmem]; exact h
    · rw [if_neg hmem]
      rw [List.nodup_append]
      exact ⟨h, List.nodup_singleton x, by
        intro a ha hax
        rw [List.mem_singleton] at hax
        exact hmem (hax ▸ ha)⟩

theorem sdFold_inv (target : ℚ) (semdist : Term → Query → Option Term → ℚ) :
    ∀ (adds : List (QueryResult × Query × Option Term)) (st : SDState),
      (st.collection.map (fun kv => kv.1)).Nodup →
      (∀ a ∈ adds, a.1.Nodup) →
      ((adds.foldl (fun st a => sdAdd target semdist st a.1 a.2.1 a.2.2)
          st).count = st.count + adds.length
      ∧ (((adds.foldl (fun st a => sdAdd target semdist st a.1 a.2.1 a.2.2)
          st).collection).map (fun kv => kv.1)).Nodup
      ∧ ∀ t, optLen ((adds.foldl
            (fun st a => sdAdd target semdist st a.1 a.2.1 a.2.2)
            st).collection.lookup t)
          = optLen (st.collection.lookup t)
            + adds.countP (fun a => decide (t ∈ a.1))) := by
  intro adds
  induction adds with
  | nil => intro st hnd _; exact ⟨rfl, hnd, fun t => by simp⟩
  | cons a rest ih =>
    intro st hnd hres
    rw [List.foldl_cons]
    have hand := hres a (List.mem_cons_self a rest)
    have hstep_nodup : (((sdAdd target semdist st a.1 a.2.1 a.2.2).collection).map
        (fun kv => kv.1)).Nodup :=
      foldAdd_keys_nodup _ a.1 st.collection hnd
    obtain ⟨hc, hn, hl⟩ := ih (sdAdd target semdist st a.1 a.2.1 a.2.2)
      hstep_nodup (fun b hb => hres b (List.mem_cons_of_mem a hb))
    refine ⟨by rw [hc]; simp only [sdAdd, List.length_cons]; omega, hn, ?_⟩
    intro t
    rw [hl t]
    have hstep_len : optLen ((sdAdd target semdist st a.1 a.2.1 a.2.2).collection.lookup t)
        = optLen (st.collection.lookup t) + (if t ∈ a.1 then 1 else 0) :=
      foldAdd_optLen _ a.1 hand st.collection t
    rw [hstep_len, List.countP_cons]
    by_cases hmem : t ∈ a.1
    · simp [hmem]
      omega
    · simp [hmem]

theorem interAll_mem : ∀ (results : List (List Term)) (t : Term),
    t ∈ interAll results → ∀ r ∈ results, t ∈ r := by
  have hfold : ∀ (xs : List (List Term)) (acc : List Term) (t : Term),
      t ∈ xs.foldl (fun acc r => acc.filter (fun u => u ∈ r)) acc →
      t ∈ acc ∧ ∀ r ∈ xs, t ∈ r := by
    intro xs
    induction xs with
    | nil => intro acc t ht; exact ⟨ht, by simp⟩
    | cons y ys ih =>
      intro acc t ht
      rw [List.foldl_cons] at ht
      obtain ⟨hacc, hys⟩ := ih (acc.filter (fun u => u ∈ y)) t ht
      rw [List.mem_filter] at hacc
      refine ⟨hacc.1, ?_⟩
      intro r hr
      rcases List.mem_cons.mp hr with rfl | hr2
      · exact of_decide_eq_true hacc.2
      · exact hys r hr2
  intro results t ht
  cases results with
  | nil => simp [interAll] at ht
  | cons x xs =>
    intro r hr
    obtain ⟨hx, hxs⟩ := hfold xs x t ht
    rcases List.mem_cons.mp hr with rfl | hr2
    · exact hx
    · exact hxs r hr2

/-- Claim C8.  For both concrete sorters, every term returned by
`sort_collection` belongs to every query-result set passed to
`add_query_result` since the last `new_collection`: the
`SemanticDistanceSorter` keeps only terms with one recorded distance per query
(duplicate-free result sets), and the `RandomUnSorter` returns a shuffled
sorted intersection. -/
theorem c8_sorters_intersection :
    (∀ (target : ℚ) (semdist : Term → Query → Option Term → ℚ)
      (aggregator : List ℚ → ℚ)
      (adds : List (QueryResult × Query × Option Term)),
      (∀ a ∈ adds, a.1.Nodup) →
      ∀ t ∈ sdRound target semdist aggregator adds, ∀ a ∈ adds, t ∈ a.1)
    ∧ (∀ (shuffle : List Term → List Term),
      (∀ l : List Term, (shuffle l).Perm l) →
      ∀ (results : List (List Term)),
      ∀ t ∈ randomUnSorterRound shuffle results, ∀ r ∈ results, t ∈ r) := by
  constructor
  · intro target semdist aggregator adds hnd t ht a ha
    obtain ⟨hc, hn, hl⟩ := sdFold_inv target semdist adds sdNew (by simp [sdNew]) hnd
    unfold sdRound sdSortCollection at ht
    obtain ⟨kv, hkv, hkv1⟩ := List.mem_map.mp ht
    rw [List.mem_mergeSort] at hkv
    obtain ⟨e, he, hekv⟩ := List.mem_map.mp hkv
    rw [List.mem_filter] at he
    have hteq : t = e.1 := by rw [← hkv1, ← hekv]
    have hlookup := lookup_of_mem_keys_nodup hn
      (show (e.1, e.2) ∈ _ from he.1)
    have hcount : e.2.length = adds.length := by
      have := of_decide_eq_true he.2
      rw [this, hc]
      simp [sdNew]
    have hall : adds.countP (fun a => decide (e.1 ∈ a.1)) = adds.length := by
      have := hl e.1
      rw [hlookup] at this
      simp only [optLen, Option.getD_some] at this
      rw [hcount] at this
      simp [sdNew, List.lookup, optLen] at this
      omega
    have := List.countP_eq_length.mp hall a ha
    rw [hteq]
    exact of_decide_eq_true this
  · intro shuffle hsh results t ht r hr
    unfold randomUnSorterRound at ht
    have ht2 := (hsh _).mem_iff.mp ht
    rw [List.mem_mergeSort] at ht2
    exact interAll_mem results t ht2 r hr



/-! ### Forest transform (`transforms/forest.py`)

`ForestTransform.__call__` iterates over trees; for each tree it runs the
pairing / anti-factual / beam-search pipeline, and each successful
instantiation is given the identifier `f"I{self.data_id_counter}"` (the
counter incremented after each use), appended to the tree's family (created
lazily on the first hit via `forest.add_family`), and stored in the forest's
`data_map` dict keyed by the identifier.  The pipeline's per-tree stream of
successful instantiations passes through two probabilistic
`GeneratorFilter`s, so it is abstracted here as a function
`hits : RelationalTree → List D` for an arbitrary payload type `D`; the
claim's invariants do not depend on the payloads.  The counter starts at an
arbitrary `c0` (it is an instance attribute persisting across calls). -/

structure InstantiationFamily where
  tree : RelationalTree
  data_ids : List String
deriving DecidableEq

structure InstantiationForest (D : Type) where
  families : List InstantiationFamily
  data_map : List (String × D)

/-- Python dict assignment `d[k] = v`: replace in place when the key exists,
append otherwise. -/
def dictSet {D : Type} (m : List (String × D)) (k : String) (v : D) :
    List (String × D) :=
  if (m.lookup k).isSome then
    m.map (fun kv => if kv.1 = k then (k, v) else kv)
  else m ++ [(k, v)]

/-- The identifier `f"I{counter}"` from `_do_instantiate`. -/
def mkId (n : ℕ) : String := "I" ++ Nat.repr n

/-- `family.add(identifier)` on the family most recently appended by
`forest.add_family` (the last one, since nothing else appends during the
current tree's loop). -/
def addToLastFamily : List InstantiationFamily → String → List InstantiationFamily
  | [], _ => []
  | [f], i => [⟨f.tree, f.data_ids ++ [i]⟩]
  | f :: g :: rest, i => f :: addToLastFamily (g :: rest) i

/-- One successful instantiation for `tree`: make the fresh identifier, add it
to the tree's family (creating the family on the first hit), store the data,
and bump the counter.  State: (forest, counter, family-created flag). -/
def processHit {D : Type} (tree : RelationalTree)
    (st : InstantiationForest D × ℕ × Bool) (d : D) :
    InstantiationForest D × ℕ × Bool :=
  let i := mkId st.2.1
  let fams := if st.2.2 then addToLastFamily st.1.families i
              else st.1.families ++ [⟨tree, [i]⟩]
  (⟨fams, dictSet st.1.data_map i d⟩, st.2.1 + 1, true)

/-- The body of `__call__`'s outer loop for one tree: `family = None`, then
every hit is processed in order. -/
def processTree {D : Type} (hits : RelationalTree → List D)
    (st : InstantiationForest D × ℕ) (tree : RelationalTree) :
    InstantiationForest D × ℕ :=
  let r := (hits tree).foldl (processHit tree) (st.1, st.2, false)
  (r.1, r.2.1)

/-- `ForestTransform.__call__`: fresh forest, loop over all trees; returns the
forest and the final counter. -/
def forestTransformRun {D : Type} (hits : RelationalTree → List D)
    (trees : List RelationalTree) (c0 : ℕ) : InstantiationForest D × ℕ :=
  trees.foldl (processTree hits) (⟨[], []⟩, c0)

/-! ### Decimal rendering is injective -/

def charVal (c : Char) : ℕ := c.toNat - 48

def digitsVal (l : List Char) : ℕ := l.foldl (fun a c => 10 * a + charVal c) 0

theorem charVal_digitChar (d : ℕ) (hd : d < 10) :
    charVal (Nat.digitChar d) = d := by
  interval_cases d <;> rfl

theorem toDigitsCore_foldl :
    ∀ (f n : ℕ) (acc : List Char), n < f →
      (Nat.toDigitsCore 10 f n acc).foldl (fun a c => 10 * a + charVal c) 0
        = acc.foldl (fun a c => 10 * a + charVal c) n := by
  intro f
  induction f with
  | zero => intro n acc h; exact absurd h (Nat.not_lt_zero n)
  | succ f ih =>
    intro n acc h
    simp only [Nat.toDigitsCore]
    by_cases h0 : n / 10 = 0
    · rw [if_pos h0, List.foldl_cons,
        charVal_digitChar (n % 10) (Nat.mod_lt n (by norm_num))]
      have hn : n % 10 = n := Nat.mod_eq_of_lt (by omega)
      rw [Nat.mul_zero, Nat.zero_add, hn]
    · rw [if_neg h0]
      have hlt : n / 10 < f := by
        have h1 : n / 10 < n := Nat.div_lt_self (by omega) (by norm_num)
        omega
      rw [ih (n / 10) (Nat.digitChar (n % 10) :: acc) hlt, List.foldl_cons,
        charVal_digitChar (n % 10) (Nat.mod_lt n (by norm_num)),
        Nat.div_add_mod n 10]

theorem reprData_val (n : ℕ) : digitsVal (Nat.repr n).data = n := by
  have h : (Nat.repr n).data = Nat.toDigitsCore 10 (n + 1) n [] := rfl
  rw [digitsVal, h, toDigitsCore_foldl (n + 1) n [] (Nat.lt_succ_self n)]
  rfl

theorem string_data_Iappend (s : String) :
    (("I" : String) ++ s).data = 'I' :: s.data := by
  obtain ⟨l⟩ := s
  rfl

theorem mkId_inj {m n : ℕ} (h : mkId m = mkId n) : m = n := by
  have hd := congrArg String.data h
  simp only [mkId, string_data_Iappend] at hd
  have hdd : (Nat.repr m).data = (Nat.repr n).data := by injection hd
  have hv := congrArg digitsVal hdd
  rwa [reprData_val, reprData_val] at hv

/-! ### Invariants of the forest fold -/

def idsBelow (c : ℕ) (l : List String) : Prop :=
  ∀ s ∈ l, ∃ k, k < c ∧ s = mkId k

def forestInv {D : Type} (F : InstantiationForest D) (c : ℕ) : Prop :=
  (F.data_map.map (fun kv => kv.1)).Nodup
  ∧ idsBelow c (F.data_map.map (fun kv => kv.1))
  ∧ (F.families.flatMap (fun f => f.data_ids)).Nodup
  ∧ idsBelow c (F.families.flatMap (fun f => f.data_ids))
  ∧ ∀ f ∈ F.families, f.data_ids ≠ []

theorem mkId_not_mem_of_idsBelow {c : ℕ} {l : List String}
    (h : idsBelow c l) : mkId c ∉ l := by
  intro hmem
  obtain ⟨k, hk, he⟩ := h _ hmem
  exact absurd (mkId_inj he) (by omega)

theorem lookup_eq_none_of_not_mem {D : Type} :
    ∀ (m : List (String × D)) (k : String),
      k ∉ m.map (fun kv => kv.1) → m.lookup k = none := by
  intro m
  induction m with
  | nil => intro k _; rfl
  | cons a as ih =>
    intro k h
    obtain ⟨k1, v1⟩ := a
    rw [List.map_cons, List.mem_cons] at h
    push_neg at h
    have hb : (k == k1) = false := beq_eq_false_iff_ne.mpr h.1
    simp [List.lookup, hb, ih k h.2]

theorem dictSet_append {D : Type} (m : List (String × D)) (k : String) (v : D)
    (h : k ∉ m.map (fun kv => kv.1)) : dictSet m k v = m ++ [(k, v)] := by
  rw [dictSet, lookup_eq_none_of_not_mem m k h]
  rfl

theorem nodup_append_fresh {l : List String} {x : String}
    (hl : l.Nodup) (hx : x ∉ l) : (l ++ [x]).Nodup := by
  rw [List.nodup_append]
  exact ⟨hl, List.nodup_singleton x, by
    intro a ha hax
    rw [List.mem_singleton] at hax
    exact hx (hax ▸ ha)⟩

theorem idsBelow_append_fresh {c : ℕ} {l : List String}
    (h : idsBelow c l) : idsBelow (c + 1) (l ++ [mkId c]) := by
  intro s hs
  rcases List.mem_append.mp hs with hs1 | hs2
  · obtain ⟨k, hk, he⟩ := h _ hs1
    exact ⟨k, by omega, he⟩
  · rw [List.mem_singleton] at hs2
    exact ⟨c, by omega, hs2⟩

theorem addToLastFamily_flatMap :
    ∀ (fams : List InstantiationFamily) (i : String), fams ≠ [] →
      (addToLastFamily fams i).flatMap (fun f => f.data_ids)
        = fams.flatMap (fun f => f.data_ids) ++ [i] := by
  intro fams
  induction fams with
  | nil => intro i h; exact absurd rfl h
  | cons f rest ih =>
    intro i _
    cases rest with
    | nil => simp [addToLastFamily]
    | cons g rest2 =>
      rw [show addToLastFamily (f :: g :: rest2) i
            = f :: addToLastFamily (g :: rest2) i from rfl]
      rw [List.flatMap_cons, List.flatMap_cons,
        ih i (List.cons_ne_nil g rest2), List.append_assoc]

theorem addToLastFamily_ne_nil (fams : List InstantiationFamily) (i : String)
    (h : fams ≠ []) : addToLastFamily fams i ≠ [] := by
  cases fams with
  | nil => exact absurd rfl h
  | cons f rest =>
    cases rest with
    | nil => simp [addToLastFamily]
    | cons g rest2 => simp [addToLastFamily]

theorem addToLastFamily_nonempty :
    ∀ (fams : List InstantiationFamily) (i : String),
      (∀ f ∈ fams, f.data_ids ≠ []) →
      ∀ f ∈ addToLastFamily fams i, f.data_ids ≠ [] := by
  intro fams
  induction fams with
  | nil => intro i _ f hf; simp [addToLastFamily] at hf
  | cons a rest ih =>
    intro i h f hf
    cases rest with
    | nil =>
      simp only [addToLastFamily, List.mem_singleton] at hf
      subst hf
      intro hcon
      simpa using congrArg List.length hcon
    | cons g rest2 =>
      rw [show addToLastFamily (a :: g :: rest2) i
            = a :: addToLastFamily (g :: rest2) i from rfl] at hf
      rcases List.mem_cons.mp hf with rfl | hf2
      · exact h f (List.mem_cons_self f (g :: rest2))
      · exact ih i (fun x hx => h x (List.mem_cons_of_mem a hx)) f hf2

theorem processHit_eq {D : Type} (tree : RelationalTree)
    (F : InstantiationForest D) (c : ℕ) (started : Bool) (d : D) :
    processHit tree (F, c, started) d =
      (⟨(if started then addToLastFamily F.families (mkId c)
          else F.families ++ [⟨tree, [mkId c]⟩]),
        dictSet F.data_map (mkId c) d⟩, c + 1, true) := rfl

theorem processHit_inv {D : Type} (tree : RelationalTree)
    (F : InstantiationForest D) (c : ℕ) (started : Bool) (d : D)
    (hF : forestInv F c) (hst : started = true → F.families ≠ []) :
    forestInv (processHit tree (F, c, started) d).1 (c + 1)
    ∧ (processHit tree (F, c, started) d).1.families ≠ [] := by
  obtain ⟨hk1, hk2, hi1, hi2, hne⟩ := hF
  rw [processHit_eq]
  have hknot : mkId c ∉ F.data_map.map (fun kv => kv.1) :=
    mkId_not_mem_of_idsBelow hk2
  have hinot : mkId c ∉ F.families.flatMap (fun f => f.data_ids) :=
    mkId_not_mem_of_idsBelow hi2
  have hkeys : (dictSet F.data_map (mkId c) d).map (fun kv => kv.1)
      = F.data_map.map (fun kv => kv.1) ++ [mkId c] := by
    rw [dictSet_append F.data_map (mkId c) d hknot, List.map_append]
    rfl
  have hfam : (if started then addToLastFamily F.families (mkId c)
        else F.families ++ [⟨tree, [mkId c]⟩]).flatMap (fun f => f.data_ids)
      = F.families.flatMap (fun f => f.data_ids) ++ [mkId c] := by
    cases started with
    | true =>
      rw [if_pos rfl]
      exact addToLastFamily_flatMap F.families (mkId c) (hst rfl)
    | false =>
      rw [if_neg (by simp)]
      simp
  refine ⟨⟨?_, ?_, ?_, ?_, ?_⟩, ?_⟩
  · rw [hkeys]; exact nodup_append_fresh hk1 hknot
  · rw [hkeys]; exact idsBelow_append_fresh hk2
  · rw [hfam]; exact nodup_append_fresh hi1 hinot
  · rw [hfam]; exact idsBelow_append_fresh hi2
  · cases started with
    | true =>
      rw [if_pos rfl]
      exact addToLastFamily_nonempty F.families (mkId c) hne
    | false =>
      rw [if_neg (by simp)]
      intro f hf
      rcases List.mem_append.mp hf with hf1 | hf2
      · exact hne f hf1
      · rw [List.mem_singleton] at hf2
        subst hf2
        intro hcon
        simpa using congrArg List.length hcon
  · cases started with
    | true =>
      rw [if_pos rfl]
      exact addToLastFamily_ne_nil F.families (mkId c) (hst rfl)
    | false =>
      rw [if_neg (by simp)]
      simp

theorem hitFold_inv {D : Type} (tree : RelationalTree) :
    ∀ (hits : List D) (F : InstantiationForest D) (c : ℕ) (started : Bool),
      forestInv F c → (started = true → F.families ≠ []) →
      forestInv (hits.foldl (processHit tree) (F, c, started)).1
          (hits.foldl (processHit tree) (F, c, started)).2.1
      ∧ ((hits.foldl (processHit tree) (F, c, started)).2.2 = true →
          (hits.foldl (processHit tree) (F, c, started)).1.families ≠ []) := by
  intro hits
  induction hits with
  | nil => intro F c started h1 h2; exact ⟨h1, h2⟩
  | cons d ds ih =>
    intro F c started h1 h2
    rw [List.foldl_cons]
    obtain ⟨hinv, hnef⟩ := processHit_inv tree F c started d h1 h2
    rw [processHit_eq] at hinv hnef ⊢
    exact ih _ (c + 1) true hinv (fun _ => hnef)

theorem treeFold_inv {D : Type} (hits : RelationalTree → List D) :
    ∀ (trees : List RelationalTree) (F : InstantiationForest D) (c : ℕ),
      forestInv F c →
      forestInv (trees.foldl (processTree hits) (F, c)).1
        (trees.foldl (processTree hits) (F, c)).2 := by
  intro trees
  induction trees with
  | nil => intro F c h; exact h
  | cons t ts ih =>
    intro F c h
    rw [List.foldl_cons]
    have h2 := hitFold_inv t (hits t) F c false h (by simp)
    have hpt : processTree hits (F, c) t
        = (((hits t).foldl (processHit t) (F, c, false)).1,
            ((hits t).foldl (processHit t) (F, c, false)).2.1) := rfl
    rw [hpt]
    exact ih _ _ h2.1

/-- Claim C9.  In the forest returned by `ForestTransform.__call__`, every
instantiation receives a fresh identifier distinct from all others (the
`data_map` keys are duplicate-free, and so is the concatenation of all
families' id lists), and every family present holds at least one id — a tree
with zero successful instantiations contributes no family. -/
theorem c9_forest_fresh_identifiers :
    ∀ (D : Type) (hits : RelationalTree → List D)
      (trees : List RelationalTree) (c0 : ℕ),
      ((forestTransformRun hits trees c0).1.data_map.map
          (fun kv => kv.1)).Nodup
      ∧ ((forestTransformRun hits trees c0).1.families.flatMap
          (fun f => f.data_ids)).Nodup
      ∧ ∀ f ∈ (forestTransformRun hits trees c0).1.families,
          f.data_ids ≠ [] := by
  intro D hits trees c0
  have h0 : forestInv (⟨[], []⟩ : InstantiationForest D) c0 := by
    refine ⟨List.nodup_nil, ?_, ?_, ?_, ?_⟩
    · intro s hs; exact absurd hs (List.not_mem_nil s)
    · simp
    · intro s hs; simp at hs
    · intro f hf; simp at hf
  have h := treeFold_inv hits trees ⟨[], []⟩ c0 h0
  exact ⟨h.1, h.2.2.1, h.2.2.2.2⟩

end Accord
